import Mathlib

/-!
# Repository discovery of cgit (`scan-tree.c`)

A shallow embedding of `is_git_dir`, `gitconfig_config`, `xstrrchr`, `add_repo`,
`scan_path`, `scan_projects` and `scan_tree`, and the properties of the
repository-discovery specification checked against them.

Conventions of the embedding:

* a C string is the list of its bytes before the terminating NUL (`Str`);
  a `char *` into a string is an index, a possibly-NULL pointer an `Option`;
* the filesystem, the user database and the two configuration-file parsers are
  the fields of `FS`; the calls made through the `repo_config_fn` callback are
  recorded in order and applied to the record under construction;
* `struct stat st` is threaded explicitly: a successful `stat` overwrites it, a
  failing one leaves it as it was;
* diagnostics written to `stderr` are not part of the model.
-/

namespace ScanTree

/-- A C string: its bytes up to, not including, the terminating NUL. -/
abbrev Str := List Char

/-! ## libc and git helpers used by scan-tree.c -/

/-- Zero test of `strcmp(a, b)`: 0 exactly when the strings are equal (a nonzero
result is represented by 1; only the zero test is used by the source). -/
def strcmp (a b : Str) : Int := if a = b then 0 else 1

/-- Zero test of `strncmp(a, b, n)` on NUL-free strings: 0 exactly when the
first `n` bytes (or the whole strings, if shorter) agree. -/
def strncmp (a b : Str) (n : Nat) : Int := if a.take n = b.take n then 0 else 1

/-- Zero test of git's `prefixcmp(str, pfx)`: 0 exactly when `str` begins with
`pfx`. -/
def prefixcmp (str pfx : Str) : Int := if pfx.isPrefixOf str then 0 else 1

/-- Offset of the first occurrence of `c` in `s`, if any. -/
def strchr0 (c : Char) : Str → Option Nat
  | [] => none
  | x :: xs => if x = c then some 0 else (strchr0 c xs).map (· + 1)

/-- The call `strchr(s + i, c)` for `c` other than NUL: the index in `s` of the
first `c` at or after index `i`, `none` for NULL. -/
def strchr (s : Str) (i : Nat) (c : Char) : Option Nat :=
  (strchr0 c (s.drop i)).map (· + i)

/-- Offset of the last occurrence of `c` in `s`, if any (`strrchr`, `c` not NUL). -/
def strrchr (s : Str) (c : Char) : Option Nat :=
  match strchr0 c s.reverse with
  | some k => some (s.length - 1 - k)
  | none => none

/-- The function `xstrrchr(s, from, c)` of the source for `c` other than NUL,
with `from` given as an index into `s` (index `s.length` is the terminating
NUL): walk down from `from` while the byte differs from `c`; the index where it
stops, or `none` (NULL) when it walks off the front of the string. -/
def xstrrchr (s : Str) (c : Char) : Nat → Option Nat
  | 0 => if s.get? 0 = some c then some 0 else none
  | k + 1 => if s.get? (k + 1) = some c then some (k + 1) else xstrrchr s c k

/-! ## The environment -/

/-- File types told apart by `S_ISDIR` and `S_ISREG`. -/
inductive FileKind
  | reg
  | dir
  | other
deriving DecidableEq, Repr

/-- The fields of `struct stat` that the source reads. -/
structure Stat where
  mode : FileKind
  uid : Nat
deriving DecidableEq, Repr

/-- Result of `stat(2)`: success with the filled structure, failure with
`ENOENT`, or failure with another `errno`. -/
inductive StatResult
  | ok (st : Stat)
  | enoent
  | error (errno : Nat)
deriving DecidableEq, Repr

/-- The fields of `struct passwd` that the source reads; `pw_gecos` may be NULL. -/
structure Passwd where
  pw_name : Str
  pw_gecos : Option Str
deriving DecidableEq, Repr

/-- The world outside scan-tree.c. `opendir` gives the `d_name` sequence that
`readdir` will return (or `none` when the directory cannot be opened),
`git_config_from_file` and `parse_configfile` give the key/value pairs the two
parsers hand to their callback for a file (none for an unreadable file), and
`readfile` gives the buffer it stores through its out-parameter (`none` when it
fails before storing anything). -/
structure FS where
  stat : Str → StatResult
  opendir : Str → Option (List Str)
  getpwuid : Nat → Option Passwd
  git_config_from_file : Str → List (Str × Str)
  parse_configfile : Str → List (Str × Str)
  readfile : Str → Option Str

/-- The fields of `ctx.cfg` that the source reads. -/
structure Cfg where
  strict_export : Option Str
  enable_git_config : Bool
  remove_suffix : Bool
  scan_hidden_path : Bool
  section_from_path : Int

/-- The value of `repo->desc`: the pointer `cgit_default_repo_desc`, NULL, or a
string of its own (the source compares pointers, so a private copy of the
default text is not the default). -/
inductive Desc
  | default
  | null
  | str (s : Str)
deriving DecidableEq, Repr

/-- The fields of `struct cgit_repo` that matter here. `name_is_url` records
that `name` and `url` are the same pointer, so that a write through one is seen
through the other; `other` stands for the remaining attributes. -/
structure Repo where
  url : Str
  name : Str
  name_is_url : Bool
  path : Option Str
  desc : Desc
  owner : Option Str
  section_ : Option Str
  other : List (Str × Str)
deriving DecidableEq, Repr

/-- The type `repo_config_fn` of the registration callback, as a state
transformer on the record it is given. -/
abbrev ConfigFn := Repo → Str → Str → Repo

/-- Modelled from the spec: `cgit_add_repo` (declared in cgit.h, defined outside
src/) creates the record keyed by the relative name; `url` initially equals
`name` (one buffer, which is how the `.git` suffix removal on `url` is also a
normalisation of `name`), `description` is the system default, `owner`, `path`
and `section` are unset. -/
def cgit_add_repo (url : Str) : Repo :=
  { url := url, name := url, name_is_url := true, path := none,
    desc := Desc.default, owner := none, section_ := none, other := [] }

/-! ## is_git_dir -/

/-- The function `is_git_dir` (lines 16-47): 1 when `path/objects` is a
directory and `path/HEAD` a regular file, else 0. -/
def is_git_dir (fs : FS) (path : Str) : Nat :=
  match fs.stat (path ++ "/objects".toList) with
  | StatResult.ok st =>
    if st.mode ≠ FileKind.dir then 0
    else
      match fs.stat (path ++ "/HEAD".toList) with
      | StatResult.ok st2 => if st2.mode ≠ FileKind.reg then 0 else 1
      | _ => 0
  | _ => 0

/-! ## gitconfig_config -/

/-- The function `gitconfig_config` (lines 57-69): the calls it makes to
`config_fn` as (name, value) pairs in order, and its return value. -/
def gitconfig_config (key value : Str) : List (Str × Str) × Int :=
  if strcmp key "gitweb.owner".toList = 0 then
    ([("owner".toList, value)], 0)
  else if strcmp key "gitweb.description".toList = 0 then
    ([("desc".toList, value)], 0)
  else if strcmp key "gitweb.category".toList = 0 then
    ([("section".toList, value)], 0)
  else if prefixcmp key "cgit.".toList = 0 then
    ([(key.drop 5, value)], 0)
  else
    ([], 0)

/-- Apply recorded callback invocations to a record, in order. -/
def apply_calls (fn : ConfigFn) (repo : Repo) (calls : List (Str × Str)) : Repo :=
  calls.foldl (fun r c => fn r c.1 c.2) repo

/-! ## add_repo, step by step -/

/-- Lines 97-102: with `strict_export` configured, `stat` the marker file;
`none` when that fails (add_repo returns), otherwise the new contents of `st`. -/
def strict_export_step (fs : FS) (cfg : Cfg) (path : Str) (st : Stat) : Option Stat :=
  match cfg.strict_export with
  | none => some st
  | some marker =>
    match fs.stat (path ++ marker) with
    | StatResult.ok st2 => some st2
    | _ => none

/-- Lines 109-112: the relative name before its tail is trimmed; `path` already
ends with the '/' appended at line 94. (When `base` is the whole of `path`, the
pointer `path->buf + strlen(base) + 1` lies behind the terminating NUL; the
model gives the empty string there. scan_path never passes such a path.) -/
def rel_of_path (base path : Str) : Str :=
  if strncmp base path base.length ≠ 0 then path
  else path.drop (base.length + 1)

/-- The five bytes at `rel.buf + rel.len - 5`; `before` are the bytes lying in
memory in front of `rel.buf`, which are read when `rel.len < 5`. -/
def tail5 (before rel : Str) : Str :=
  (before ++ rel).drop ((before ++ rel).length - 5)

/-- Lines 114-117: trim the tail of the relative name. `none` stands for the
one case without a defined result: the comparison succeeds on bytes in front of
the buffer and `strbuf_setlen` is called with `rel.len - 5` wrapped around. -/
def trim_rel (before rel : Str) : Option Str :=
  if strcmp (tail5 before rel) "/.git".toList = 0 then
    (if 5 ≤ rel.length then some (rel.take (rel.length - 5)) else none)
  else if rel.length ≠ 0 ∧ rel.get? (rel.length - 1) = some '/' then
    some (rel.take (rel.length - 1))
  else
    some rel

/-- Lines 121-125: the callback invocations produced by the legacy config file. -/
def git_config_calls (fs : FS) (cfg : Cfg) (path : Str) : List (Str × Str) :=
  if cfg.enable_git_config then
    (fs.git_config_from_file (path ++ "config".toList)).flatMap
      (fun kv => (gitconfig_config kv.1 kv.2).1)
  else []

/-- Lines 127-129: cut `repo->url` at its last '.' when what follows is ".git". -/
def remove_suffix_step (cfg : Cfg) (repo : Repo) : Repo :=
  if cfg.remove_suffix then
    match strrchr repo.url '.' with
    | some p =>
      if strcmp (repo.url.drop p) ".git".toList = 0 then
        { repo with url := repo.url.take p,
                    name := if repo.name_is_url then repo.url.take p else repo.name }
      else repo
    | none => repo
  else repo

/-- The owner string built at lines 137-140 from a passwd entry. -/
def owner_of_passwd (pwd : Passwd) : Str :=
  match pwd.pw_gecos with
  | some gecos =>
    match strchr gecos 0 ',' with
    | some p => gecos.take p
    | none => gecos
  | none => pwd.pw_name

/-- Lines 131-141, the loop `while (!repo->owner)`. One unit of fuel is spent
per evaluation of the loop condition; the result is the record and the uids
passed to `getpwuid` so far, or `none` when the fuel runs out. -/
def owner_loop (fs : FS) (uid : Nat) : Nat → Repo → List Nat → Option (Repo × List Nat)
  | 0, _, _ => none
  | fuel + 1, repo, lookups =>
    if repo.owner ≠ none then some (repo, lookups)
    else
      match fs.getpwuid uid with
      | none => some (repo, lookups ++ [uid])
      | some pwd =>
        owner_loop fs uid fuel { repo with owner := some (owner_of_passwd pwd) }
          (lookups ++ [uid])

/-- Lines 143-148: read the description file while the description is the
default pointer or NULL. -/
def desc_step (fs : FS) (path : Str) (repo : Repo) : Repo :=
  if repo.desc = Desc.default ∨ repo.desc = Desc.null then
    match fs.stat (path ++ "description".toList) with
    | StatResult.ok _ =>
      match fs.readfile (path ++ "description".toList) with
      | some s => { repo with desc := Desc.str s }
      | none => repo
    | _ => repo
  else repo

/-- Lines 153-155: `slash = rel.buf; while (slash && n && (slash = strchr(slash, '/'))) n--;`
for the remaining count `n`; returns the final `slash` and `n`. -/
def forward_loop (rel : Str) : Option Nat → Nat → Option Nat × Nat
  | none, n => (none, n)
  | some i, 0 => (some i, 0)
  | some i, n + 1 =>
    match strchr rel i '/' with
    | none => (none, n + 1)
    | some j => forward_loop rel (some j) n

/-- Lines 157-159: `slash = rel.buf + rel.len; while (slash && n && (slash = xstrrchr(rel.buf, slash, '/'))) n++;`
for `n` negative, `k` being `-n`; returns the final `slash` and `-n`. -/
def backward_loop (rel : Str) : Option Nat → Nat → Option Nat × Nat
  | none, k => (none, k)
  | some i, 0 => (some i, 0)
  | some i, k + 1 =>
    match xstrrchr rel '/' i with
    | none => (none, k + 1)
    | some j => backward_loop rel (some j) k

/-- Lines 150-164: the section string that add_repo derives from the relative
name for `section_from_path = n`, `none` when no section is produced. -/
def section_of (rel : Str) (n : Int) : Option Str :=
  if n = 0 then none
  else
    let r := if 0 < n then forward_loop rel (some 0) n.toNat
             else backward_loop rel (some rel.length) (-n).toNat
    match r with
    | (some slash, 0) => some (rel.take slash)
    | _ => none

/-- Lines 165-169: by how many bytes `repo->name` is advanced: past the section
and one '/', when the name begins with the section. -/
def section_offset (name sect : Str) : Nat :=
  if prefixcmp name sect = 0 then
    (if (name.drop sect.length).head? = some '/' then sect.length + 1 else sect.length)
  else 0

/-- Lines 165-169: the string `repo->name` points to afterwards. -/
def strip_section (name sect : Str) : Str := name.drop (section_offset name sect)

/-- Lines 150-171. Once `name` has been advanced it is no longer the pointer
`url`. -/
def section_step (cfg : Cfg) (rel : Str) (repo : Repo) : Repo :=
  match section_of rel cfg.section_from_path with
  | some sect =>
    { repo with section_ := some sect, name := strip_section repo.name sect,
                name_is_url := repo.name_is_url && section_offset repo.name sect == 0 }
  | none => repo

/-- Lines 173-175: the callback invocations produced by the cgitrc file. -/
def cgitrc_calls (fs : FS) (path : Str) : List (Str × Str) :=
  match fs.stat (path ++ "cgitrc".toList) with
  | StatResult.ok _ => fs.parse_configfile (path ++ "cgitrc".toList)
  | _ => []

/-- What a call of add_repo that reaches line 119 has done: the argument of
`cgit_add_repo`, the record as it stands after the legacy-config step (line
125), before the cgitrc step (line 172) and at the end, the invocations of the
callback in order, and the uids passed to `getpwuid`. -/
structure Added where
  rel : Str
  after_git_config : Repo
  before_cgitrc : Repo
  repo : Repo
  calls : List (Str × Str)
  lookups : List Nat
deriving DecidableEq, Repr

/-- How a call of add_repo ends: it returns before line 119 (`skipped`:
`cgit_add_repo` and the callback were not called), it runs to the end
(`added`), or it has no defined result (`undefined`, see `trim_rel`). -/
inductive Outcome
  | skipped
  | undefined
  | added (a : Added)
deriving DecidableEq, Repr

/-- The argument of `cgit_add_repo`, `none` when it was not called. -/
def Outcome.registered : Outcome → Option Str
  | Outcome.added a => some a.rel
  | _ => none

/-- The invocations of the registration callback, in order. -/
def Outcome.calls : Outcome → List (Str × Str)
  | Outcome.added a => a.calls
  | _ => []

/-- The uids looked up in the user database, in order. -/
def Outcome.lookups : Outcome → List Nat
  | Outcome.added a => a.lookups
  | _ => []

/-- The record as add_repo leaves it, `none` when none was created. -/
def Outcome.repo : Outcome → Option Repo
  | Outcome.added a => some a.repo
  | _ => none

/-- Lines 119-177 of add_repo, from the call of `cgit_add_repo` on; `path` ends
with '/', `st` is the content of the stat buffer at line 119. -/
def add_repo_tail (fs : FS) (cfg : Cfg) (fn : ConfigFn) (fuel : Nat)
    (path : Str) (st : Stat) (rel : Str) : Option Outcome :=
  let repo0 := cgit_add_repo rel
  let calls1 := git_config_calls fs cfg path
  let repo1 := apply_calls fn repo0 calls1
  let repo2 := remove_suffix_step cfg repo1
  let repo3 := { repo2 with path := some path }
  match owner_loop fs st.uid fuel repo3 [] with
  | none => none
  | some (repo4, lookups) =>
    let repo5 := desc_step fs path repo4
    let repo6 := section_step cfg rel repo5
    let calls2 := cgitrc_calls fs path
    let repo7 := apply_calls fn repo6 calls2
    some (Outcome.added
      { rel := rel, after_git_config := repo1, before_cgitrc := repo6, repo := repo7,
        calls := calls1 ++ calls2, lookups := lookups })

/-- The function `add_repo` (lines 78-178). `before` are the bytes in front of
the buffer of `rel` (see `tail5`), `fuel` bounds the owner loop; the result is
`none` only when that fuel runs out. -/
def add_repo (fs : FS) (cfg : Cfg) (fn : ConfigFn) (before : Str) (fuel : Nat)
    (base path : Str) : Option Outcome :=
  match fs.stat path with
  | StatResult.ok st0 =>
    let path1 := path ++ ['/']
    match strict_export_step fs cfg path1 st0 with
    | none => some Outcome.skipped
    | some st1 =>
      match fs.stat (path1 ++ "noweb".toList) with
      | StatResult.ok _ => some Outcome.skipped
      | _ =>
        match trim_rel before (rel_of_path base path1) with
        | none => some Outcome.undefined
        | some rel => add_repo_tail fs cfg fn fuel path1 st1 rel
  | _ => some Outcome.skipped

/-- The value of the last pair with the given key, if the key occurs. -/
def last_value (key : Str) : List (Str × Str) → Option Str
  | [] => none
  | c :: cs =>
    match last_value key cs with
    | some v => some v
    | none => if c.1 = key then some c.2 else none

/-! ## scan_path, scan_projects, scan_tree -/

/-- The calls made by scan_path, in order. -/
inductive Call
  | add_repo (path : Str)
  | scan_path (path : Str)
deriving DecidableEq, Repr

/-- Lines 210-217: whether the loop skips a directory entry by its name. -/
def skip_entry (cfg : Cfg) : Str → Bool
  | '.' :: [] => true
  | '.' :: '.' :: [] => true
  | '.' :: _ => !cfg.scan_hidden_path
  | _ => false

/-- Lines 209-227, the `readdir` loop over the entries of `path`; `recurse` is
the recursive call of scan_path. `none` when a recursive call ran out of fuel. -/
def scan_entries (fs : FS) (cfg : Cfg) (recurse : Str → Option (List Call)) (path : Str) :
    List Str → Option (List Call)
  | [] => some []
  | d_name :: rest =>
    if skip_entry cfg d_name then scan_entries fs cfg recurse path rest
    else
      match fs.stat (path ++ '/' :: d_name) with
      | StatResult.ok st =>
        if st.mode = FileKind.dir then
          match recurse (path ++ '/' :: d_name), scan_entries fs cfg recurse path rest with
          | some sub, some more => some (Call.scan_path (path ++ '/' :: d_name) :: sub ++ more)
          | _, _ => none
        else scan_entries fs cfg recurse path rest
      | _ => scan_entries fs cfg recurse path rest

/-- The function `scan_path` (lines 180-231) as the sequence of calls to
add_repo and to itself that it makes; `fuel` bounds the recursion depth, `none`
when it runs out. -/
def scan_path (fs : FS) (cfg : Cfg) : Nat → Str → Option (List Call)
  | 0, _ => none
  | fuel + 1, path =>
    match fs.opendir path with
    | none => some []
    | some entries =>
      if is_git_dir fs path ≠ 0 then some [Call.add_repo path]
      else if is_git_dir fs (path ++ "/.git".toList) ≠ 0 then
        some [Call.add_repo (path ++ "/.git".toList)]
      else scan_entries fs cfg (scan_path fs cfg fuel) path entries

/-- The function `scan_tree` (lines 262-265). -/
def scan_tree (fs : FS) (cfg : Cfg) (fuel : Nat) (path : Str) : Option (List Call) :=
  scan_path fs cfg fuel path

/-- The loop of `scan_projects` (lines 247-253) over the lines read. -/
def scan_projects_lines (fs : FS) (cfg : Cfg) (fuel : Nat) (path : Str) :
    List Str → Option (List Call)
  | [] => some []
  | line :: rest =>
    if line.length = 0 then scan_projects_lines fs cfg fuel path rest
    else
      match scan_path fs cfg fuel (path ++ '/' :: line), scan_projects_lines fs cfg fuel path rest with
      | some sub, some more => some (Call.scan_path (path ++ '/' :: line) :: sub ++ more)
      | _, _ => none

/-- The function `scan_projects` (lines 235-260); `projects` are the lines of
the projects file, `none` when it cannot be opened. -/
def scan_projects (fs : FS) (cfg : Cfg) (fuel : Nat) (path : Str)
    (projects : Option (List Str)) : Option (List Call) :=
  match projects with
  | none => some []
  | some lines => scan_projects_lines fs cfg fuel path lines

/-! ## Predicates used to state the properties -/

/-- Whether a string, read after a byte that was a '/' (`prev_slash`) or was
not, has no '/' directly after a '/' and does not end with a '/'. -/
def clean_from : Bool → Str → Bool
  | prev_slash, [] => !prev_slash
  | prev_slash, c :: cs =>
    if c = '/' then (!prev_slash && clean_from true cs) else clean_from false cs

/-- A well-formed relative path: non-empty, neither beginning nor ending with
'/', and without two adjacent '/'. -/
def clean (s : Str) : Bool := clean_from true s

/-- The string neither begins nor ends with '/'. -/
def no_edge_slash (s : Str) : Prop := s.head? ≠ some '/' ∧ s.getLast? ≠ some '/'

/-- Directory entries as `readdir` returns them: every `d_name` is non-empty
and contains no '/'. -/
def entries_wf (fs : FS) : Prop :=
  ∀ p entries, fs.opendir p = some entries → ∀ e ∈ entries, e ≠ [] ∧ '/' ∉ e

/-- The directories that scan_path, started on `root`, goes into: the root, and
below a reached directory that could be opened and is neither a git directory
nor holds one as `.git`, every entry that the loop does not skip and that
`stat` reports as a directory. -/
inductive Visits (fs : FS) (cfg : Cfg) (root : Str) : Str → Prop
  | root : Visits fs cfg root root
  | child (p : Str) (entries : List Str) (e : Str) (st : Stat) :
      Visits fs cfg root p → fs.opendir p = some entries →
      is_git_dir fs p = 0 → is_git_dir fs (p ++ "/.git".toList) = 0 →
      e ∈ entries → skip_entry cfg e = false →
      fs.stat (p ++ '/' :: e) = StatResult.ok st → st.mode = FileKind.dir →
      Visits fs cfg root (p ++ '/' :: e)

/-- What a call recorded by scan_path, started on `root`, says about the
directory it was made in. -/
def call_ok (fs : FS) (cfg : Cfg) (root : Str) : Call → Prop
  | Call.scan_path v => Visits fs cfg root v ∧ v ≠ root
  | Call.add_repo q =>
    ∃ v, Visits fs cfg root v ∧ fs.opendir v ≠ none ∧
      ((q = v ∧ is_git_dir fs v ≠ 0) ∨
       (q = v ++ "/.git".toList ∧ is_git_dir fs v = 0 ∧
          is_git_dir fs (v ++ "/.git".toList) ≠ 0))

/-- The part of a scanned path after the scan root: nothing, or a '/' followed
by a relative path with the property `P`. -/
def tail_of (P : Str → Prop) (u : Str) : Prop := u = [] ∨ ∃ t, u = '/' :: t ∧ P t

/-- A non-empty relative path that neither begins nor ends with '/'. -/
def edge_ok (t : Str) : Prop := t ≠ [] ∧ no_edge_slash t

/-! ## Concrete environments used to evaluate the model -/

/-- Look a path up in a table keyed by string literals. -/
def lookup {α : Type} (tbl : List (String × α)) (p : Str) : Option α :=
  match tbl.find? (fun e => decide (e.1.toList = p)) with
  | some e => some e.2
  | none => none

/-- Turn a table of string pairs into key/value pairs of C strings. -/
def pairs (l : List (String × String)) : List (Str × Str) :=
  l.map (fun kv => (kv.1.toList, kv.2.toList))

/-- A filesystem given by tables: stat results (anything not listed is
`ENOENT`), directory listings, passwd entries, the contents of git config and
cgitrc files, and plain file contents. -/
def table_fs (stats : List (String × Stat)) (dirs : List (String × List String))
    (users : List (Nat × Passwd)) (gitcfg rc : List (String × List (String × String)))
    (files : List (String × String)) : FS :=
  { stat := fun p =>
      match lookup stats p with
      | some st => StatResult.ok st
      | none => StatResult.enoent
    opendir := fun p => (lookup dirs p).map (fun l => l.map String.toList)
    getpwuid := fun uid => (users.find? (fun e => decide (e.1 = uid))).map (fun e => e.2)
    git_config_from_file := fun p => pairs ((lookup gitcfg p).getD [])
    parse_configfile := fun p => pairs ((lookup rc p).getD [])
    readfile := fun p => (lookup files p).map String.toList }

/-- Two accounts: alice (uid 1000, with a full-name field) and root (uid 0,
without one). -/
def users_example : List (Nat × Passwd) :=
  [ (1000, { pw_name := "alice".toList, pw_gecos := some "Alice A,Room 1,555".toList }),
    (0, { pw_name := "root".toList, pw_gecos := none }) ]

/-- A configuration with every option off. -/
def cfg_plain : Cfg :=
  { strict_export := none, enable_git_config := false, remove_suffix := false,
    scan_hidden_path := false, section_from_path := 0 }

/-- A callback in the manner of cgit's `repo_config`: `desc`, `owner` and
`section` set the field of that name, `name` and `url` replace the pointer, any
other key is kept among the remaining attributes. -/
def fn_example : ConfigFn := fun r k v =>
  if k = "desc".toList then { r with desc := Desc.str v }
  else if k = "owner".toList then { r with owner := some v }
  else if k = "section".toList then { r with section_ := some v }
  else if k = "name".toList then { r with name := v, name_is_url := false }
  else if k = "url".toList then { r with url := v, name_is_url := false }
  else { r with other := r.other ++ [(k, v)] }

/-- The tree of the spec's example: scan root `/a/b`, a non-bare repository in
`/a/b/c/d`, whose git directory `/a/b/c/d/.git` holds a directory `objects` and
a file `HEAD`, a description file and a cgitrc. -/
def fs_abcd : FS :=
  table_fs
    [ ("/a/b", ⟨FileKind.dir, 0⟩), ("/a/b/c", ⟨FileKind.dir, 0⟩),
      ("/a/b/c/d", ⟨FileKind.dir, 1000⟩), ("/a/b/c/d/src", ⟨FileKind.dir, 1000⟩),
      ("/a/b/c/d/README", ⟨FileKind.reg, 1000⟩),
      ("/a/b/c/d/.git", ⟨FileKind.dir, 1000⟩),
      ("/a/b/c/d/.git/objects", ⟨FileKind.dir, 1000⟩),
      ("/a/b/c/d/.git/HEAD", ⟨FileKind.reg, 1000⟩),
      ("/a/b/c/d/.git/config", ⟨FileKind.reg, 1000⟩),
      ("/a/b/c/d/.git/description", ⟨FileKind.reg, 1000⟩),
      ("/a/b/c/d/.git/cgitrc", ⟨FileKind.reg, 1000⟩) ]
    [ ("/a/b", [".", "..", "c"]), ("/a/b/c", [".", "..", "d"]),
      ("/a/b/c/d", [".", "..", ".git", "README", "src"]),
      ("/a/b/c/d/src", [".", ".."]),
      ("/a/b/c/d/.git", [".", "..", "HEAD", "config", "description", "objects"]) ]
    users_example
    [ ("/a/b/c/d/.git/config", [("core.bare", "false"), ("gitweb.description", "from gitweb")]) ]
    [ ("/a/b/c/d/.git/cgitrc", [("desc", "from cgitrc")]) ]
    [ ("/a/b/c/d/.git/description", "from the description file") ]

/-- A bare repository `/srv/r.git` (uid 1000) holding the opt-out file `noweb`
and an export marker `git-daemon-export-ok` that belongs to root (uid 0). -/
def fs_srv : FS :=
  table_fs
    [ ("/srv", ⟨FileKind.dir, 0⟩), ("/srv/r.git", ⟨FileKind.dir, 1000⟩),
      ("/srv/r.git/objects", ⟨FileKind.dir, 1000⟩),
      ("/srv/r.git/HEAD", ⟨FileKind.reg, 1000⟩),
      ("/srv/r.git/noweb", ⟨FileKind.reg, 1000⟩),
      ("/srv/r.git/git-daemon-export-ok", ⟨FileKind.reg, 0⟩) ]
    [ ("/srv", [".", "..", "r.git"]),
      ("/srv/r.git", [".", "..", "HEAD", "git-daemon-export-ok", "noweb", "objects"]) ]
    users_example [] [] []

/-- The same repository without the `noweb` file. -/
def fs_srv_web : FS :=
  table_fs
    [ ("/srv", ⟨FileKind.dir, 0⟩), ("/srv/r.git", ⟨FileKind.dir, 1000⟩),
      ("/srv/r.git/objects", ⟨FileKind.dir, 1000⟩),
      ("/srv/r.git/HEAD", ⟨FileKind.reg, 1000⟩),
      ("/srv/r.git/git-daemon-export-ok", ⟨FileKind.reg, 0⟩) ]
    [ ("/srv", [".", "..", "r.git"]),
      ("/srv/r.git", [".", "..", "HEAD", "git-daemon-export-ok", "objects"]) ]
    users_example [] [] []

/-- A configuration that requires the export marker `git-daemon-export-ok`. -/
def cfg_strict : Cfg :=
  { cfg_plain with strict_export := some "git-daemon-export-ok".toList }

/-- A configuration that requires an export marker which no repository has. -/
def cfg_strict_missing : Cfg :=
  { cfg_plain with strict_export := some "export-ok".toList }

/-- The filesystem seen when the projects file names the repository of
`/srv/r.git` with a trailing separator, as the line `r.git/`. -/
def fs_list : FS :=
  table_fs
    [ ("/srv", ⟨FileKind.dir, 0⟩), ("/srv/r.git/", ⟨FileKind.dir, 1000⟩),
      ("/srv/r.git//objects", ⟨FileKind.dir, 1000⟩),
      ("/srv/r.git//HEAD", ⟨FileKind.reg, 1000⟩) ]
    [ ("/srv", [".", "..", "r.git"]),
      ("/srv/r.git/", [".", "..", "HEAD", "objects"]) ]
    users_example [] [] []

/-- A configuration that reads the legacy config file of each repository. -/
def cfg_git_config : Cfg := { cfg_plain with enable_git_config := true }

/-- The record of the repository of `fs_abcd` after the legacy-config step. -/
def repo_abcd_config : Repo :=
  { url := "c/d/.git".toList, name := "c/d/.git".toList, name_is_url := true, path := none,
    desc := Desc.str "from gitweb".toList, owner := none, section_ := none, other := [] }

/-- What add_repo does for the repository of `fs_abcd` under `cfg_git_config`. -/
def added_abcd : Added :=
  { rel := "c/d/.git".toList
    after_git_config := repo_abcd_config
    before_cgitrc :=
      { repo_abcd_config with
        path := some "/a/b/c/d/.git/".toList, owner := some "Alice A".toList }
    repo :=
      { repo_abcd_config with
        path := some "/a/b/c/d/.git/".toList, owner := some "Alice A".toList,
        desc := Desc.str "from cgitrc".toList }
    calls := pairs [("desc", "from gitweb"), ("desc", "from cgitrc")]
    lookups := [1000] }

/-- A configuration that removes the `.git` suffix of the url. -/
def cfg_remove_suffix : Cfg := { cfg_plain with remove_suffix := true }

/-- A bare repository `/srv/g/foo.git` (uid 1000) below the directory `/srv/g`. -/
def fs_bare : FS :=
  table_fs
    [ ("/srv", ⟨FileKind.dir, 0⟩), ("/srv/g", ⟨FileKind.dir, 0⟩),
      ("/srv/g/foo.git", ⟨FileKind.dir, 1000⟩),
      ("/srv/g/foo.git/objects", ⟨FileKind.dir, 1000⟩),
      ("/srv/g/foo.git/HEAD", ⟨FileKind.reg, 1000⟩) ]
    [ ("/srv", [".", "..", "g"]), ("/srv/g", [".", "..", "foo.git"]),
      ("/srv/g/foo.git", [".", "..", "HEAD", "objects"]) ]
    users_example [] [] []

/-- The `.git` suffix is removed and the first path element is the section. -/
def cfg_section_fwd : Cfg :=
  { cfg_plain with remove_suffix := true, section_from_path := 1 }

/-- The `.git` suffix is removed and all but the last path element is the
section. -/
def cfg_section_bwd : Cfg :=
  { cfg_plain with remove_suffix := true, section_from_path := -1 }

/-- The first path element is the section, the suffix is kept. -/
def cfg_section_only : Cfg := { cfg_plain with section_from_path := 1 }

/-- What add_repo does for the repository of `fs_bare`, under `cfg_section_fwd`
and under `cfg_section_bwd` alike: registered as `g/foo.git`, url `g/foo`,
section `g`, name `foo`. -/
def added_foo : Added :=
  { rel := "g/foo.git".toList
    after_git_config := cgit_add_repo "g/foo.git".toList
    before_cgitrc :=
      { url := "g/foo".toList, name := "foo".toList, name_is_url := false,
        path := some "/srv/g/foo.git/".toList, desc := Desc.default,
        owner := some "Alice A".toList, section_ := some "g".toList, other := [] }
    repo :=
      { url := "g/foo".toList, name := "foo".toList, name_is_url := false,
        path := some "/srv/g/foo.git/".toList, desc := Desc.default,
        owner := some "Alice A".toList, section_ := some "g".toList, other := [] }
    calls := []
    lookups := [1000] }

/-- What add_repo does for the repository of `fs_abcd` under `cfg_section_only`:
registered as `c/d/.git`, section `c`, name `d/.git`; the description file is
read and the cgitrc applied. -/
def added_abcd_section : Added :=
  { rel := "c/d/.git".toList
    after_git_config := cgit_add_repo "c/d/.git".toList
    before_cgitrc :=
      { url := "c/d/.git".toList, name := "d/.git".toList, name_is_url := false,
        path := some "/a/b/c/d/.git/".toList,
        desc := Desc.str "from the description file".toList,
        owner := some "Alice A".toList, section_ := some "c".toList, other := [] }
    repo :=
      { url := "c/d/.git".toList, name := "d/.git".toList, name_is_url := false,
        path := some "/a/b/c/d/.git/".toList, desc := Desc.str "from cgitrc".toList,
        owner := some "Alice A".toList, section_ := some "c".toList, other := [] }
    calls := pairs [("desc", "from cgitrc")]
    lookups := [1000] }

/-! ## Facts about the helpers -/

theorem strcmp_eq_zero (a b : Str) : strcmp a b = 0 ↔ a = b := by
  unfold strcmp; split <;> simp_all

theorem strncmp_eq_zero (a b : Str) (n : Nat) : strncmp a b n = 0 ↔ a.take n = b.take n := by
  unfold strncmp; split <;> simp_all

theorem prefixcmp_eq_zero (s p : Str) : prefixcmp s p = 0 ↔ p <+: s := by
  unfold prefixcmp
  by_cases h : p.isPrefixOf s = true
  · simp [h, List.isPrefixOf_iff_prefix.mp h]
  · have : ¬ p <+: s := fun hp => h (List.isPrefixOf_iff_prefix.mpr hp)
    simp [h, this]

/-- Below the scan root the relative name is what follows the root and one
more byte. -/
theorem rel_of_path_append (base : Str) (x : Char) (tl : Str) :
    rel_of_path base (base ++ x :: tl) = tl := by
  have h : strncmp base (base ++ x :: tl) base.length = 0 := by
    rw [strncmp_eq_zero]; simp
  unfold rel_of_path
  rw [if_neg (by simp [h])]
  rw [← List.drop_drop]
  simp

/-- The five bytes compared at line 114 end with the last byte of `rel`. -/
theorem tail5_concat_ne (before y : Str) (c : Char) (t : Str) (hc : t.getLast? ≠ some c)
    : tail5 before (y ++ [c]) ≠ t := by
  intro h
  apply hc
  rw [← h]
  unfold tail5
  rw [List.getLast?_drop]
  simp

/-- A relative name ending with '/' loses exactly that byte at lines 114-117:
the test for "/.git" cannot succeed on it. -/
theorem trim_rel_slash (before y : Str) : trim_rel before (y ++ ['/']) = some y := by
  unfold trim_rel
  have h : strcmp (tail5 before (y ++ ['/'])) "/.git".toList ≠ 0 := by
    rw [Ne, strcmp_eq_zero]
    exact tail5_concat_ne before y '/' _ (by decide)
  rw [if_neg h]
  simp

theorem trim_rel_nil (before : Str) : trim_rel before [] = some [] ∨ trim_rel before [] = none := by
  unfold trim_rel
  split <;> simp

/-! ## The repository-root classifier -/

/-- C5: over any filesystem, `is_git_dir p` returns 1 exactly when `stat` of
`p/objects` succeeds with a directory and `stat` of `p/HEAD` succeeds with a
regular file, and it returns 0 in every other combination (another file type,
a missing entry, or a `stat` that fails with any error). -/
theorem is_git_dir_iff (fs : FS) (p : Str) :
    (is_git_dir fs p = 1 ↔
      (∃ uid, fs.stat (p ++ "/objects".toList) = StatResult.ok ⟨FileKind.dir, uid⟩) ∧
      (∃ uid, fs.stat (p ++ "/HEAD".toList) = StatResult.ok ⟨FileKind.reg, uid⟩)) ∧
    (is_git_dir fs p = 0 ↔
      ¬ ((∃ uid, fs.stat (p ++ "/objects".toList) = StatResult.ok ⟨FileKind.dir, uid⟩) ∧
         (∃ uid, fs.stat (p ++ "/HEAD".toList) = StatResult.ok ⟨FileKind.reg, uid⟩))) := by
  unfold is_git_dir
  generalize fs.stat (p ++ "/objects".toList) = r1
  generalize fs.stat (p ++ "/HEAD".toList) = r2
  rcases r1 with ⟨m1, u1⟩ | _ | _ <;> rcases r2 with ⟨m2, u2⟩ | _ | _ <;>
    first
    | (cases m1 <;> cases m2 <;> simp)
    | (cases m1 <;> simp)
    | simp

/-! ## The legacy-config key translation -/

theorem gitconfig_config_cgit (rest v : Str) :
    gitconfig_config ("cgit.".toList ++ rest) v = ([(rest, v)], 0) := by
  simp [gitconfig_config, strcmp_eq_zero, prefixcmp_eq_zero]

theorem gitconfig_config_other (k v : Str) (h1 : k ≠ "gitweb.owner".toList)
    (h2 : k ≠ "gitweb.description".toList) (h3 : k ≠ "gitweb.category".toList)
    (h4 : ¬ "cgit.".toList <+: k) : gitconfig_config k v = ([], 0) := by
  simp_all [gitconfig_config, strcmp_eq_zero, prefixcmp_eq_zero]

/-- C6, as the claim states it, fails: for the key `cgit.owner` the callback is
invoked with ("owner", v) although the key is not `gitweb.owner`. -/
theorem gitconfig_config_cgit_owner :
    (gitconfig_config "cgit.owner".toList "x".toList).1 = [("owner".toList, "x".toList)] ∧
    "cgit.owner".toList ≠ "gitweb.owner".toList := by decide

/-- C6, amended: for every key k and value v, `gitconfig_config` returns 0 and
invokes the callback at most once, always with the value v unchanged: with
("owner", v) iff k is `gitweb.owner` or `cgit.owner`, with ("desc", v) iff k is
`gitweb.description` or `cgit.desc`, with ("section", v) iff k is
`gitweb.category` or `cgit.section`, with (k minus its first 5 bytes, v) iff k
begins with `cgit.`, and not at all iff k is none of the three gitweb keys and
does not begin with `cgit.`. -/
theorem gitconfig_config_spec (k v : Str) :
    (gitconfig_config k v).2 = 0 ∧
    (gitconfig_config k v).1.length ≤ 1 ∧
    (∀ c ∈ (gitconfig_config k v).1, c.2 = v) ∧
    ((gitconfig_config k v).1 = [("owner".toList, v)] ↔
      k = "gitweb.owner".toList ∨ k = "cgit.owner".toList) ∧
    ((gitconfig_config k v).1 = [("desc".toList, v)] ↔
      k = "gitweb.description".toList ∨ k = "cgit.desc".toList) ∧
    ((gitconfig_config k v).1 = [("section".toList, v)] ↔
      k = "gitweb.category".toList ∨ k = "cgit.section".toList) ∧
    ((gitconfig_config k v).1 = [(k.drop 5, v)] ↔ "cgit.".toList <+: k) ∧
    ((gitconfig_config k v).1 = [] ↔
      k ≠ "gitweb.owner".toList ∧ k ≠ "gitweb.description".toList ∧
      k ≠ "gitweb.category".toList ∧ ¬ "cgit.".toList <+: k) := by
  by_cases h1 : k = "gitweb.owner".toList
  · subst h1; simp [gitconfig_config, strcmp_eq_zero, prefixcmp_eq_zero]
  by_cases h2 : k = "gitweb.description".toList
  · subst h2; simp [gitconfig_config, strcmp_eq_zero, prefixcmp_eq_zero]
  by_cases h3 : k = "gitweb.category".toList
  · subst h3; simp [gitconfig_config, strcmp_eq_zero, prefixcmp_eq_zero]
  by_cases h4 : "cgit.".toList <+: k
  · obtain ⟨rest, rfl⟩ := h4
    rw [gitconfig_config_cgit]
    simp
  · rw [gitconfig_config_other k v h1 h2 h3 h4]
    have e1 : k ≠ "cgit.owner".toList := by
      rintro rfl; exact h4 ⟨"owner".toList, rfl⟩
    have e2 : k ≠ "cgit.desc".toList := by
      rintro rfl; exact h4 ⟨"desc".toList, rfl⟩
    have e3 : k ≠ "cgit.section".toList := by
      rintro rfl; exact h4 ⟨"section".toList, rfl⟩
    simp_all

/-! ## The relative name -/

/-- For a git directory `B/R/.git` below the scan root `B` the name computed at
lines 109-117 is `R/.git`, whatever `B` and `R` are: line 94 has appended a '/'
to the path, so the name ends with "/.git/" when the test of line 114 looks for
"/.git", and only the '/' is removed (line 117). -/
theorem rel_of_dot_git (before base r : Str) :
    trim_rel before (rel_of_path base ((base ++ '/' :: r ++ "/.git".toList) ++ ['/'])) =
      some (r ++ "/.git".toList) := by
  have e : (base ++ '/' :: r ++ "/.git".toList) ++ ['/']
      = base ++ '/' :: ((r ++ "/.git".toList) ++ ['/']) := by simp
  rw [e, rel_of_path_append, trim_rel_slash]

/-- C1, evaluated on the spec's own example: scanning the root `/a/b`,
`scan_tree` reaches add_repo with the path `/a/b/c/d/.git`, and add_repo calls
`cgit_add_repo` with the name `c/d/.git`, not `c/d`. -/
theorem add_repo_keeps_dot_git :
    scan_tree fs_abcd cfg_plain 3 "/a/b".toList =
      some [Call.scan_path "/a/b/c".toList, Call.scan_path "/a/b/c/d".toList,
            Call.add_repo "/a/b/c/d/.git".toList] ∧
    (add_repo fs_abcd cfg_plain fn_example [] 2 "/a/b".toList "/a/b/c/d/.git".toList).map
      Outcome.registered = some (some "c/d/.git".toList) := by
  decide

/-! ## Section extraction -/

/-- C2, evaluated: with `section_from_path = 2` the section of `a/b/c/d` is `a`
(not `a/b`), and the name `a/b`, which has a single '/', still gets the section
`a`: the loop of lines 153-155 searches again from the '/' it has just found. -/
theorem section_forward_stuck :
    section_of "a/b/c/d".toList 2 = some "a".toList ∧
    section_of "a/b".toList 2 = some "a".toList := by
  decide

/-- C3, evaluated: with `section_from_path = -2` the section of `a/b/c/d` is
`a/b/c` (not `a/b`), the same as with -1, and the name `a/b`, which has a single
'/', gets the section `a`: `xstrrchr` is called again on the '/' it has just
found (lines 157-159). -/
theorem section_backward_stuck :
    section_of "a/b/c/d".toList (-2) = some "a/b/c".toList ∧
    section_of "a/b/c/d".toList (-1) = some "a/b/c".toList ∧
    section_of "a/b".toList (-2) = some "a".toList := by
  decide

/-! ## Opt-out and strict export -/

theorem add_repo_noweb (fs : FS) (cfg : Cfg) (fn : ConfigFn) (before : Str) (fuel : Nat)
    (base path : Str) (st : Stat)
    (h : fs.stat (path ++ "/noweb".toList) = StatResult.ok st) :
    add_repo fs cfg fn before fuel base path = some Outcome.skipped := by
  have h2 : fs.stat ((path ++ ['/']) ++ "noweb".toList) = StatResult.ok st := by
    rw [← h]; congr 1; simp
  unfold add_repo
  cases fs.stat path with
  | enoent => rfl
  | error e => rfl
  | ok st0 =>
    simp only
    cases strict_export_step fs cfg (path ++ ['/']) st0 with
    | none => rfl
    | some st1 => simp only [h2]

theorem add_repo_strict_export (fs : FS) (cfg : Cfg) (fn : ConfigFn) (before : Str)
    (fuel : Nat) (base path marker : Str) (hm : cfg.strict_export = some marker)
    (h : ∀ st, fs.stat (path ++ '/' :: marker) ≠ StatResult.ok st) :
    add_repo fs cfg fn before fuel base path = some Outcome.skipped := by
  have h2 : strict_export_step fs cfg (path ++ ['/']) = fun _ => none := by
    funext st0
    unfold strict_export_step
    rw [hm]
    simp only
    have e : path ++ ['/'] ++ marker = path ++ '/' :: marker := by simp
    rw [e]
    cases hs : fs.stat (path ++ '/' :: marker) with
    | ok st => exact absurd hs (h st)
    | enoent => rfl
    | error e => rfl
  unfold add_repo
  cases fs.stat path with
  | enoent => rfl
  | error e => rfl
  | ok st0 => simp only [h2]

/-- C8: whatever the scan root, the path and the configuration, when `stat` of
`path/noweb` succeeds add_repo returns without calling `cgit_add_repo` and
without invoking the callback (also for a path that `is_git_dir` accepts), and
likewise when `strict_export` is configured and `stat` of the marker file
`path/<strict_export>` fails (the file is absent, or any other error). -/
theorem add_repo_skips (fs : FS) (cfg : Cfg) (fn : ConfigFn) (before : Str) (fuel : Nat)
    (base path : Str)
    (h : (∃ st, fs.stat (path ++ "/noweb".toList) = StatResult.ok st) ∨
         (∃ marker, cfg.strict_export = some marker ∧
            ∀ st, fs.stat (path ++ '/' :: marker) ≠ StatResult.ok st)) :
    add_repo fs cfg fn before fuel base path = some Outcome.skipped ∧
    (add_repo fs cfg fn before fuel base path).map Outcome.registered = some none ∧
    (add_repo fs cfg fn before fuel base path).map Outcome.calls = some [] := by
  have key : add_repo fs cfg fn before fuel base path = some Outcome.skipped := by
    rcases h with ⟨st, h⟩ | ⟨marker, hm, h⟩
    · exact add_repo_noweb fs cfg fn before fuel base path st h
    · exact add_repo_strict_export fs cfg fn before fuel base path marker hm h
  rw [key]
  exact ⟨rfl, rfl, rfl⟩

theorem add_repo_skips_witness :
    (is_git_dir fs_srv "/srv/r.git".toList = 1 ∧
      add_repo fs_srv cfg_plain fn_example [] 2 "/srv".toList "/srv/r.git".toList
        = some Outcome.skipped) ∧
    (is_git_dir fs_srv_web "/srv/r.git".toList = 1 ∧
      add_repo fs_srv_web cfg_strict_missing fn_example [] 2 "/srv".toList "/srv/r.git".toList
        = some Outcome.skipped) :=
  ⟨⟨by decide,
    (add_repo_skips fs_srv cfg_plain fn_example [] 2 "/srv".toList "/srv/r.git".toList
      (Or.inl ⟨⟨FileKind.reg, 1000⟩, by decide⟩)).1⟩,
   ⟨by decide,
    (add_repo_skips fs_srv_web cfg_strict_missing fn_example [] 2 "/srv".toList
      "/srv/r.git".toList
      (Or.inr ⟨"export-ok".toList, rfl, fun st h => by
        have e : fs_srv_web.stat ("/srv/r.git".toList ++ '/' :: "export-ok".toList)
            = StatResult.enoent := by decide
        rw [e] at h
        cases h⟩)).1⟩⟩

/-! ## The owner step -/

theorem strchr0_eq_none (c : Char) (s : Str) : strchr0 c s = none ↔ c ∉ s := by
  induction s with
  | nil => simp [strchr0]
  | cons x xs ih =>
    unfold strchr0
    by_cases h : x = c
    · simp [h]
    · have h2 : ¬ c = x := fun e => h e.symm
      simp [h, h2, ih]

theorem strchr0_take (c : Char) (s : Str) (i : Nat) (h : strchr0 c s = some i) :
    s.take i = s.takeWhile (fun x => decide (x ≠ c)) ∧ s.get? i = some c := by
  induction s generalizing i with
  | nil => simp [strchr0] at h
  | cons x xs ih =>
    unfold strchr0 at h
    by_cases hx : x = c
    · simp [hx] at h
      subst h
      simp [hx]
    · simp [hx] at h
      obtain ⟨j, hj, rfl⟩ := h
      have := ih j hj
      simp [List.takeWhile_cons, hx, this.1]
      simpa using this.2

theorem takeWhile_of_not_mem (c : Char) (s : Str) (h : c ∉ s) :
    s.takeWhile (fun x => decide (x ≠ c)) = s := by
  induction s with
  | nil => rfl
  | cons x xs ih =>
    have hx : x ≠ c := fun e => h (by simp [e])
    have hxs : c ∉ xs := fun e => h (by simp [e])
    rw [List.takeWhile_cons, ih hxs]
    simp [hx]

/-- The owner string is the full-name field cut before its first comma when the
field is present, and the login name otherwise. -/
theorem owner_of_passwd_spec (pwd : Passwd) :
    owner_of_passwd pwd =
      match pwd.pw_gecos with
      | some gecos => gecos.takeWhile (fun x => decide (x ≠ ','))
      | none => pwd.pw_name := by
  unfold owner_of_passwd
  cases hg : pwd.pw_gecos with
  | none => rfl
  | some gecos =>
    simp only
    unfold strchr
    simp only [List.drop_zero]
    cases hs : strchr0 ',' gecos with
    | none =>
      simp only [Option.map_none']
      exact (takeWhile_of_not_mem ',' gecos ((strchr0_eq_none ',' gecos).mp hs)).symm
    | some i =>
      simp only [Option.map_some', Nat.add_zero]
      exact (strchr0_take ',' gecos i hs).1

/-- The owner loop returns for every fuel of at least two condition checks:
an owner that is already set is kept and no lookup is made; otherwise there is
exactly one lookup, for the uid in the stat buffer, after which the owner is
still unset if the lookup failed and is the string of `owner_of_passwd` if it
succeeded. -/
theorem owner_loop_spec (fs : FS) (uid fuel : Nat) (repo : Repo) :
    owner_loop fs uid (fuel + 2) repo [] =
      some (match repo.owner, fs.getpwuid uid with
            | some _, _ => (repo, [])
            | none, none => (repo, [uid])
            | none, some pwd => ({ repo with owner := some (owner_of_passwd pwd) }, [uid])) := by
  cases ho : repo.owner with
  | some o => simp [owner_loop, ho]
  | none =>
    cases hp : fs.getpwuid uid with
    | none => simp [owner_loop, ho, hp]
    | some pwd => simp [owner_loop, ho, hp]

/-- The call of add_repo that reaches line 119 runs to its end whenever the fuel
allows two checks of the owner-loop condition. -/
theorem add_repo_tail_returns (fs : FS) (cfg : Cfg) (fn : ConfigFn) (fuel : Nat)
    (path : Str) (st : Stat) (rel : Str) :
    ∃ a, add_repo_tail fs cfg fn (fuel + 2) path st rel = some (Outcome.added a) := by
  unfold add_repo_tail
  simp only [owner_loop_spec]
  exact ⟨_, rfl⟩

/-- C10, evaluated: with `strict_export` set to `git-daemon-export-ok`, for the
repository directory `/srv/r.git` owned by uid 1000 whose marker file is owned
by uid 0, the one lookup made by the owner step is for uid 0, the owner of the
marker file, and the owner becomes `root`: the stat buffer read at line 132 was
overwritten by the `stat` of the marker file at line 99. Without
`strict_export` the lookup is for uid 1000. -/
theorem owner_lookup_uses_marker_uid :
    fs_srv_web.stat "/srv/r.git".toList = StatResult.ok ⟨FileKind.dir, 1000⟩ ∧
    (add_repo fs_srv_web cfg_strict fn_example [] 2 "/srv".toList "/srv/r.git".toList).map
      Outcome.lookups = some [0] ∧
    (add_repo fs_srv_web cfg_strict fn_example [] 2 "/srv".toList "/srv/r.git".toList).map
      (fun o => o.repo.map Repo.owner) = some (some (some "root".toList)) ∧
    (add_repo fs_srv_web cfg_plain fn_example [] 2 "/srv".toList "/srv/r.git".toList).map
      Outcome.lookups = some [1000] := by
  decide

/-! ## Inversion of add_repo -/

/-- Whatever the fuel, the owner loop changes at most the `owner` field. -/
theorem owner_loop_frame (fs : FS) (uid fuel : Nat) (repo r : Repo) (l lk : List Nat)
    (h : owner_loop fs uid fuel repo l = some (r, lk)) :
    ∃ o, r = { repo with owner := o } := by
  induction fuel generalizing repo l with
  | zero => simp [owner_loop] at h
  | succ n ih =>
    unfold owner_loop at h
    by_cases ho : repo.owner ≠ none
    · rw [if_pos ho] at h
      simp only [Option.some.injEq, Prod.mk.injEq] at h
      exact ⟨repo.owner, h.1.symm⟩
    · rw [if_neg ho] at h
      cases hp : fs.getpwuid uid with
      | none =>
        rw [hp] at h
        simp only [Option.some.injEq, Prod.mk.injEq] at h
        exact ⟨repo.owner, h.1.symm⟩
      | some pwd =>
        rw [hp] at h
        obtain ⟨o, ho2⟩ := ih _ _ h
        exact ⟨o, by rw [ho2]⟩

/-- What the fields of the result of `add_repo_tail` are. -/
theorem add_repo_tail_inv (fs : FS) (cfg : Cfg) (fn : ConfigFn) (fuel : Nat)
    (path : Str) (st : Stat) (rel : Str) (o : Outcome)
    (h : add_repo_tail fs cfg fn fuel path st rel = some o) :
    ∃ a r4, o = Outcome.added a ∧
      a.rel = rel ∧
      a.after_git_config = apply_calls fn (cgit_add_repo rel) (git_config_calls fs cfg path) ∧
      owner_loop fs st.uid fuel
        { remove_suffix_step cfg a.after_git_config with path := some path } []
        = some (r4, a.lookups) ∧
      a.before_cgitrc = section_step cfg rel (desc_step fs path r4) ∧
      a.repo = apply_calls fn a.before_cgitrc (cgitrc_calls fs path) ∧
      a.calls = git_config_calls fs cfg path ++ cgitrc_calls fs path := by
  unfold add_repo_tail at h
  simp only at h
  split at h
  · exact absurd h (by simp)
  · rename_i r4 lk hl
    simp only [Option.some.injEq] at h
    subst h
    exact ⟨_, r4, rfl, rfl, rfl, hl, rfl, rfl, rfl⟩

/-- A call of add_repo that ends in `added` went through `add_repo_tail` with
the path extended by '/', the name computed by lines 109-117, and a stat buffer
that holds the result of the last successful `stat`. -/
theorem add_repo_inv (fs : FS) (cfg : Cfg) (fn : ConfigFn) (before : Str) (fuel : Nat)
    (base path : Str) (a : Added)
    (h : add_repo fs cfg fn before fuel base path = some (Outcome.added a)) :
    ∃ st0 st1 rel, fs.stat path = StatResult.ok st0 ∧
      strict_export_step fs cfg (path ++ ['/']) st0 = some st1 ∧
      trim_rel before (rel_of_path base (path ++ ['/'])) = some rel ∧
      add_repo_tail fs cfg fn fuel (path ++ ['/']) st1 rel = some (Outcome.added a) := by
  unfold add_repo at h
  split at h
  · rename_i st0 hs0
    simp only at h
    split at h
    · simp at h
    · rename_i st1 hs1
      split at h
      · simp at h
      · split at h
        · simp at h
        · rename_i rel hrel
          exact ⟨st0, st1, rel, hs0, hs1, hrel, h⟩
  · simp at h

/-! ## The description -/

theorem path_slash_append (p s : Str) : (p ++ ['/']) ++ s = p ++ '/' :: s := by simp

theorem remove_suffix_step_desc (cfg : Cfg) (r : Repo) :
    (remove_suffix_step cfg r).desc = r.desc := by
  unfold remove_suffix_step
  split
  · split
    · split <;> rfl
    · rfl
  · rfl

theorem section_step_desc (cfg : Cfg) (rel : Str) (r : Repo) :
    (section_step cfg rel r).desc = r.desc := by
  unfold section_step
  split <;> rfl

/-- The description-file step either leaves the description as it is, or finds
it at the default or unset and replaces it by the contents of the file. -/
theorem desc_step_desc (fs : FS) (p : Str) (r : Repo) :
    (desc_step fs p r).desc = r.desc ∨
    ((r.desc = Desc.default ∨ r.desc = Desc.null) ∧
      ∃ s, fs.readfile (p ++ "description".toList) = some s ∧
        (desc_step fs p r).desc = Desc.str s) := by
  unfold desc_step
  by_cases hd : r.desc = Desc.default ∨ r.desc = Desc.null
  · rw [if_pos hd]
    cases fs.stat (p ++ "description".toList) with
    | enoent => exact Or.inl rfl
    | error e => exact Or.inl rfl
    | ok st =>
      cases hr : fs.readfile (p ++ "description".toList) with
      | none => exact Or.inl rfl
      | some s => exact Or.inr ⟨hd, s, rfl, rfl⟩
  · rw [if_neg hd]
    exact Or.inl rfl

theorem desc_step_custom (fs : FS) (p : Str) (r : Repo) (w : Str) (h : r.desc = Desc.str w) :
    desc_step fs p r = r := by
  unfold desc_step
  rw [if_neg (by rw [h]; simp)]

theorem last_value_cons (key : Str) (c : Str × Str) (cs : List (Str × Str)) :
    last_value key (c :: cs) =
      match last_value key cs with
      | some v => some v
      | none => if c.1 = key then some c.2 else none := rfl

/-- For a callback that stores the value of the key `desc` as the description
and leaves the description alone for every other key, the description after a
run of invocations is the last value given for `desc`, if there is one. -/
theorem apply_calls_desc (fn : ConfigFn)
    (hfn : ∀ r k v, (fn r k v).desc = if k = "desc".toList then Desc.str v else r.desc)
    (calls : List (Str × Str)) (r : Repo) :
    (apply_calls fn r calls).desc =
      match last_value "desc".toList calls with
      | some v => Desc.str v
      | none => r.desc := by
  induction calls generalizing r with
  | nil => rfl
  | cons c cs ih =>
    have e : apply_calls fn r (c :: cs) = apply_calls fn (fn r c.1 c.2) cs := rfl
    rw [e, ih, last_value_cons]
    cases last_value "desc".toList cs with
    | some v => rfl
    | none =>
      simp only
      rw [hfn]
      by_cases hk : c.1 = "desc".toList
      · rw [if_pos hk, if_pos hk]
      · rw [if_neg hk, if_neg hk]

theorem last_value_of_mem (key v : Str) (calls : List (Str × Str)) (h : (key, v) ∈ calls) :
    ∃ w, last_value key calls = some w := by
  induction calls with
  | nil => simp at h
  | cons c cs ih =>
    rw [last_value_cons]
    cases hl : last_value key cs with
    | some w => exact ⟨w, rfl⟩
    | none =>
      rcases List.mem_cons.mp h with rfl | hm
      · exact ⟨v, by simp⟩
      · obtain ⟨w, hw⟩ := ih hm
        rw [hl] at hw
        cases hw

theorem git_config_calls_description (fs : FS) (cfg : Cfg) (p v : Str)
    (he : cfg.enable_git_config = true)
    (h : ("gitweb.description".toList, v) ∈ fs.git_config_from_file (p ++ "config".toList)) :
    ("desc".toList, v) ∈ git_config_calls fs cfg p := by
  unfold git_config_calls
  rw [if_pos he, List.mem_flatMap]
  exact ⟨_, h, by simp [gitconfig_config, strcmp_eq_zero]⟩

/-- C9: in a call of add_repo that registers a record, the description before
the cgitrc step differs from the one left by the legacy-config step only if
that one was the system default or unset, and then it is the contents of the
description file; the final record is the one before the cgitrc step with the
cgitrc pairs applied through the callback. For a callback that stores the value
of `desc` as the description and leaves it alone for other keys: a description
given by `gitweb.description` in the legacy config stays as the legacy-config
step left it, and a `desc` given in cgitrc is the final description, whatever
the description file holds. -/
theorem add_repo_description (fs : FS) (cfg : Cfg) (fn : ConfigFn) (before : Str)
    (fuel : Nat) (base path : Str) (a : Added)
    (h : add_repo fs cfg fn before fuel base path = some (Outcome.added a)) :
    (a.before_cgitrc.desc = a.after_git_config.desc ∨
      ((a.after_git_config.desc = Desc.default ∨ a.after_git_config.desc = Desc.null) ∧
        ∃ s, fs.readfile (path ++ "/description".toList) = some s ∧
          a.before_cgitrc.desc = Desc.str s)) ∧
    a.repo = apply_calls fn a.before_cgitrc (cgitrc_calls fs (path ++ ['/'])) ∧
    ((∀ r k v, (fn r k v).desc = if k = "desc".toList then Desc.str v else r.desc) →
      (∀ v, cfg.enable_git_config = true →
        ("gitweb.description".toList, v) ∈
          fs.git_config_from_file (path ++ "/config".toList) →
        (∃ w, a.after_git_config.desc = Desc.str w) ∧
          a.before_cgitrc.desc = a.after_git_config.desc) ∧
      (∀ st v, fs.stat (path ++ "/cgitrc".toList) = StatResult.ok st →
        last_value "desc".toList (fs.parse_configfile (path ++ "/cgitrc".toList)) = some v →
        a.repo.desc = Desc.str v)) := by
  obtain ⟨st0, st1, rel, -, -, -, ht⟩ := add_repo_inv fs cfg fn before fuel base path a h
  obtain ⟨a2, r4, ha, -, hafter, hloop, hbefore, hrepo, -⟩ :=
    add_repo_tail_inv fs cfg fn fuel _ st1 rel _ ht
  cases ha
  obtain ⟨o, hr4⟩ := owner_loop_frame _ _ _ _ _ _ _ hloop
  have hd4 : r4.desc = a.after_git_config.desc := by
    rw [hr4]; exact remove_suffix_step_desc cfg _
  have hb : a.before_cgitrc.desc = (desc_step fs (path ++ ['/']) r4).desc := by
    rw [hbefore]; exact section_step_desc _ _ _
  have e1 : path ++ "/description".toList = (path ++ ['/']) ++ "description".toList := by
    rw [path_slash_append]; rfl
  have e2 : path ++ "/config".toList = (path ++ ['/']) ++ "config".toList := by
    rw [path_slash_append]; rfl
  have e3 : path ++ "/cgitrc".toList = (path ++ ['/']) ++ "cgitrc".toList := by
    rw [path_slash_append]; rfl
  refine ⟨?_, hrepo, ?_⟩
  · rw [hb, ← hd4, e1]
    exact desc_step_desc fs _ r4
  · intro hfn
    refine ⟨?_, ?_⟩
    · intro v he hv
      rw [e2] at hv
      have hm := git_config_calls_description fs cfg _ v he hv
      obtain ⟨w, hw⟩ := last_value_of_mem _ _ _ hm
      have hdesc : a.after_git_config.desc = Desc.str w := by
        rw [hafter, apply_calls_desc fn hfn, hw]
      refine ⟨⟨w, hdesc⟩, ?_⟩
      rw [hb, desc_step_custom fs _ r4 w (by rw [hd4, hdesc]), hd4]
    · intro st v hst hv
      rw [e3] at hst hv
      have hc : cgitrc_calls fs (path ++ ['/']) =
          fs.parse_configfile ((path ++ ['/']) ++ "cgitrc".toList) := by
        unfold cgitrc_calls; rw [hst]
      rw [hrepo, apply_calls_desc fn hfn, hc, hv]

theorem fn_example_desc (r : Repo) (k v : Str) :
    (fn_example r k v).desc = if k = "desc".toList then Desc.str v else r.desc := by
  unfold fn_example
  split_ifs <;> rfl

theorem add_repo_description_witness :
    add_repo fs_abcd cfg_git_config fn_example [] 2 "/a/b".toList "/a/b/c/d/.git".toList
      = some (Outcome.added added_abcd) ∧
    fs_abcd.readfile "/a/b/c/d/.git/description".toList
      = some "from the description file".toList ∧
    added_abcd.before_cgitrc.desc = Desc.str "from gitweb".toList ∧
    added_abcd.repo.desc = Desc.str "from cgitrc".toList :=
  have h : add_repo fs_abcd cfg_git_config fn_example [] 2 "/a/b".toList
      "/a/b/c/d/.git".toList = some (Outcome.added added_abcd) := by decide
  have t := add_repo_description fs_abcd cfg_git_config fn_example [] 2 "/a/b".toList
      "/a/b/c/d/.git".toList added_abcd h
  ⟨h, by decide,
   ((t.2.2 fn_example_desc).1 "from gitweb".toList rfl (by decide)).2.trans (by decide),
   (t.2.2 fn_example_desc).2 ⟨FileKind.reg, 1000⟩ "from cgitrc".toList (by decide)
     (by decide)⟩

/-! ## The owner step inside add_repo -/

theorem owner_loop_some (fs : FS) (uid fuel : Nat) (repo : Repo) (x : Repo × List Nat)
    (h : owner_loop fs uid fuel repo [] = some x) :
    x = (match repo.owner, fs.getpwuid uid with
         | some _, _ => (repo, [])
         | none, none => (repo, [uid])
         | none, some pwd => ({ repo with owner := some (owner_of_passwd pwd) }, [uid])) := by
  match fuel with
  | 0 => simp [owner_loop] at h
  | 1 =>
    cases ho : repo.owner with
    | some o => simp [owner_loop, ho] at h; rw [← h]
    | none =>
      cases hp : fs.getpwuid uid with
      | none => simp [owner_loop, ho, hp] at h; rw [← h]
      | some pwd => simp [owner_loop, ho, hp] at h
  | k + 2 =>
    rw [owner_loop_spec] at h
    exact (Option.some.inj h).symm

theorem remove_suffix_step_owner (cfg : Cfg) (r : Repo) :
    (remove_suffix_step cfg r).owner = r.owner := by
  unfold remove_suffix_step
  split
  · split
    · split <;> rfl
    · rfl
  · rfl

theorem desc_step_owner (fs : FS) (p : Str) (r : Repo) : (desc_step fs p r).owner = r.owner := by
  unfold desc_step
  split
  · split
    · split <;> rfl
    · rfl
  · rfl

theorem section_step_owner (cfg : Cfg) (rel : Str) (r : Repo) :
    (section_step cfg rel r).owner = r.owner := by
  unfold section_step
  split <;> rfl

/-- The owner step as part of add_repo: the stat buffer `st1` it reads holds the
result of the `stat` of the repository path when `strict_export` is not
configured, and of the `stat` of the marker file when it is. An owner left by
the legacy-config step is kept without a lookup; otherwise there is exactly one
lookup, for `st1.uid`; after a failed lookup the owner is still unset before the
cgitrc step, after a successful one it is the string of `owner_of_passwd`. -/
theorem add_repo_owner (fs : FS) (cfg : Cfg) (fn : ConfigFn) (before : Str) (fuel : Nat)
    (base path : Str) (a : Added)
    (h : add_repo fs cfg fn before fuel base path = some (Outcome.added a)) :
    ∃ st0 st1, fs.stat path = StatResult.ok st0 ∧
      (cfg.strict_export = none → st1 = st0) ∧
      (∀ m, cfg.strict_export = some m → fs.stat (path ++ '/' :: m) = StatResult.ok st1) ∧
      (a.before_cgitrc.owner, a.lookups) =
        (match a.after_git_config.owner, fs.getpwuid st1.uid with
         | some o, _ => (some o, [])
         | none, none => (none, [st1.uid])
         | none, some pwd => (some (owner_of_passwd pwd), [st1.uid])) := by
  obtain ⟨st0, st1, rel, hs0, hs1, -, ht⟩ := add_repo_inv fs cfg fn before fuel base path a h
  obtain ⟨a2, r4, ha, -, -, hloop, hbefore, -, -⟩ :=
    add_repo_tail_inv fs cfg fn fuel _ st1 rel _ ht
  cases ha
  refine ⟨st0, st1, hs0, ?_, ?_, ?_⟩
  · intro hn
    unfold strict_export_step at hs1
    rw [hn] at hs1
    exact (Option.some.inj hs1).symm
  · intro m hm
    unfold strict_export_step at hs1
    rw [hm] at hs1
    simp only [path_slash_append] at hs1
    cases hst : fs.stat (path ++ '/' :: m) with
    | ok st2 =>
      rw [hst] at hs1
      rw [Option.some.inj hs1]
    | enoent => rw [hst] at hs1; cases hs1
    | error e => rw [hst] at hs1; cases hs1
  · have hx := owner_loop_some _ _ _ _ _ hloop
    have ho : a.before_cgitrc.owner = r4.owner := by
      rw [hbefore, section_step_owner, desc_step_owner]
    rw [ho]
    have hro : (remove_suffix_step cfg a.after_git_config).owner = a.after_git_config.owner :=
      remove_suffix_step_owner cfg _
    simp only at hx
    rw [hro] at hx
    cases hao : a.after_git_config.owner with
    | some o =>
      rw [hao] at hx
      simp only [Prod.mk.injEq] at hx
      rw [hx.1, hx.2]
    | none =>
      rw [hao] at hx
      cases hp : fs.getpwuid st1.uid with
      | none =>
        rw [hp] at hx
        simp only [Prod.mk.injEq] at hx
        rw [hx.1, hx.2]
      | some pwd =>
        rw [hp] at hx
        simp only [Prod.mk.injEq] at hx
        rw [hx.1, hx.2]


/-! ## Well-formed relative paths -/

theorem clean_from_entry (b : Bool) (e : Str) (hne : e ≠ []) (hs : '/' ∉ e) :
    clean_from b e = true := by
  induction e generalizing b with
  | nil => exact absurd rfl hne
  | cons c cs ih =>
    have hc : c ≠ '/' := fun h => hs (by simp [h])
    have hcs : '/' ∉ cs := fun h => hs (by simp [h])
    unfold clean_from
    rw [if_neg hc]
    cases cs with
    | nil => rfl
    | cons c2 cs2 => exact ih false (by simp) hcs

theorem clean_from_append_entry (b : Bool) (t e : Str) (ht : clean_from b t = true)
    (hne : e ≠ []) (hs : '/' ∉ e) : clean_from b (t ++ '/' :: e) = true := by
  induction t generalizing b with
  | nil =>
    cases b with
    | true => simp [clean_from] at ht
    | false =>
      simp only [List.nil_append]
      unfold clean_from
      simp [clean_from_entry true e hne hs]
  | cons c cs ih =>
    simp only [List.cons_append]
    unfold clean_from at ht ⊢
    by_cases hc : c = '/'
    · rw [if_pos hc] at ht ⊢
      simp only [Bool.and_eq_true] at ht ⊢
      exact ⟨ht.1, ih true ht.2⟩
    · rw [if_neg hc] at ht ⊢
      exact ih false ht

theorem clean_from_suffix (b : Bool) (x rest : Str)
    (h : clean_from b (x ++ '/' :: rest) = true) : clean_from true rest = true := by
  induction x generalizing b with
  | nil =>
    simp only [List.nil_append] at h
    unfold clean_from at h
    simp at h
    exact h.2
  | cons c cs ih =>
    simp only [List.cons_append] at h
    unfold clean_from at h
    by_cases hc : c = '/'
    · rw [if_pos hc] at h
      simp only [Bool.and_eq_true] at h
      exact ih true h.2
    · rw [if_neg hc] at h
      exact ih false h

theorem clean_from_getLast (b : Bool) (t : Str) (h : clean_from b t = true) :
    t.getLast? ≠ some '/' := by
  induction t generalizing b with
  | nil => simp
  | cons c cs ih =>
    unfold clean_from at h
    by_cases hc : c = '/'
    · rw [if_pos hc] at h
      simp only [Bool.and_eq_true] at h
      cases cs with
      | nil => simp [clean_from] at h
      | cons c2 cs2 =>
        rw [List.getLast?_cons_cons]
        exact ih true h.2
    · rw [if_neg hc] at h
      cases cs with
      | nil => simpa using hc
      | cons c2 cs2 =>
        rw [List.getLast?_cons_cons]
        exact ih false h

theorem clean_head (t : Str) (h : clean t = true) : t.head? ≠ some '/' := by
  unfold clean at h
  cases t with
  | nil => simp
  | cons c cs =>
    unfold clean_from at h
    by_cases hc : c = '/'
    · rw [if_pos hc] at h; simp at h
    · simpa using hc

theorem clean_no_edge_slash (t : Str) (h : clean t = true) : no_edge_slash t :=
  ⟨clean_head t h, clean_from_getLast true t h⟩

theorem no_edge_slash_nil : no_edge_slash [] := by
  unfold no_edge_slash; simp

theorem clean_append_entry (t e : Str) (ht : clean t = true) (hne : e ≠ [])
    (hs : '/' ∉ e) : clean (t ++ '/' :: e) = true :=
  clean_from_append_entry true t e ht hne hs

theorem clean_entry (e : Str) (hne : e ≠ []) (hs : '/' ∉ e) : clean e = true :=
  clean_from_entry true e hne hs

theorem clean_drop (rel : Str) (i : Nat) (h : clean rel = true) (hi : rel.get? i = some '/') :
    clean (rel.drop (i + 1)) = true := by
  have hlt : i < rel.length := by
    rw [List.get?_eq_getElem?] at hi
    exact (List.getElem?_eq_some_iff.mp hi).1
  have hget : rel[i] = '/' := by
    rw [List.get?_eq_getElem?] at hi
    exact (List.getElem?_eq_some_iff.mp hi).2
  have e : rel = rel.take i ++ '/' :: rel.drop (i + 1) := by
    conv_lhs => rw [← List.take_append_drop i rel]
    rw [List.drop_eq_getElem_cons hlt, hget]
  unfold clean at h ⊢
  rw [e] at h
  exact clean_from_suffix true _ _ h

/-! ## What the section loops compute -/

theorem strchr_get (s : Str) (i j : Nat) (c : Char) (h : strchr s i c = some j) :
    s.get? j = some c := by
  unfold strchr at h
  cases hk : strchr0 c (s.drop i) with
  | none => rw [hk] at h; simp at h
  | some k =>
    rw [hk] at h
    simp only [Option.map_some', Option.some.injEq] at h
    have := (strchr0_take c _ k hk).2
    rw [List.get?_eq_getElem?, List.getElem?_drop] at this
    rw [List.get?_eq_getElem?, ← h, Nat.add_comm]
    exact this

theorem strchr_idem (s : Str) (j : Nat) (c : Char) (h : s.get? j = some c) :
    strchr s j c = some j := by
  rw [List.get?_eq_getElem?] at h
  obtain ⟨hlt, hget⟩ := List.getElem?_eq_some_iff.mp h
  unfold strchr
  rw [List.drop_eq_getElem_cons hlt, hget]
  simp [strchr0]

theorem xstrrchr_get (s : Str) (c : Char) (k j : Nat) (h : xstrrchr s c k = some j) :
    s.get? j = some c := by
  induction k with
  | zero =>
    unfold xstrrchr at h
    split at h
    · simp only [Option.some.injEq] at h; subst h; assumption
    · simp at h
  | succ n ih =>
    unfold xstrrchr at h
    split at h
    · simp only [Option.some.injEq] at h; subst h; assumption
    · exact ih h

theorem xstrrchr_idem (s : Str) (c : Char) (j : Nat) (h : s.get? j = some c) :
    xstrrchr s c j = some j := by
  cases j with
  | zero => unfold xstrrchr; rw [if_pos h]
  | succ n => unfold xstrrchr; rw [if_pos h]

/-- Once the forward loop stands on a '/', every further round finds that same
'/' again. -/
theorem forward_loop_stuck (rel : Str) (j n : Nat) (h : rel.get? j = some '/') :
    forward_loop rel (some j) n = (some j, 0) := by
  induction n with
  | zero => rfl
  | succ m ih =>
    unfold forward_loop
    rw [strchr_idem rel j '/' h]
    exact ih

theorem backward_loop_stuck (rel : Str) (j n : Nat) (h : rel.get? j = some '/') :
    backward_loop rel (some j) n = (some j, 0) := by
  induction n with
  | zero => rfl
  | succ m ih =>
    unfold backward_loop
    rw [xstrrchr_idem rel '/' j h]
    exact ih

/-- For every positive `section_from_path` the section computed by lines
150-164 is the part of the relative name before its first '/', and there is a
section exactly when the name contains a '/': the count does not matter. -/
theorem section_of_forward (rel : Str) (n : Int) (hn : 0 < n) :
    section_of rel n = (strchr rel 0 '/').map (fun j => rel.take j) := by
  obtain ⟨m, rfl⟩ : ∃ m : Nat, n = (m : Int) + 1 :=
    ⟨(n - 1).toNat, by omega⟩
  unfold section_of
  rw [if_neg (by omega), if_pos hn]
  have e : ((m : Int) + 1).toNat = m + 1 := by omega
  rw [e]
  unfold forward_loop
  cases hs : strchr rel 0 '/' with
  | none => rfl
  | some j =>
    simp only
    rw [forward_loop_stuck rel j m (strchr_get rel 0 j '/' hs)]
    rfl

/-- For every negative `section_from_path` the section computed by lines
150-164 is the part of the relative name before its last '/', and there is a
section exactly when the name contains a '/': the count does not matter. -/
theorem section_of_backward (rel : Str) (n : Int) (hn : n < 0) :
    section_of rel n = (xstrrchr rel '/' rel.length).map (fun j => rel.take j) := by
  obtain ⟨m, rfl⟩ : ∃ m : Nat, n = -((m : Int) + 1) :=
    ⟨(-n - 1).toNat, by omega⟩
  unfold section_of
  rw [if_neg (by omega), if_neg (by omega)]
  have e : (-(-((m : Int) + 1))).toNat = m + 1 := by omega
  rw [e]
  unfold backward_loop
  cases hs : xstrrchr rel '/' rel.length with
  | none => rfl
  | some j =>
    simp only
    rw [backward_loop_stuck rel j m (xstrrchr_get rel '/' _ j hs)]
    rfl

/-- A section, when there is one, is the part of the relative name before one
of its '/' bytes. -/
theorem section_of_slash (rel : Str) (n : Int) (sect : Str)
    (h : section_of rel n = some sect) :
    ∃ i, rel.get? i = some '/' ∧ sect = rel.take i := by
  rcases lt_trichotomy n 0 with hn | hn | hn
  · rw [section_of_backward rel n hn] at h
    cases hs : xstrrchr rel '/' rel.length with
    | none => rw [hs] at h; simp at h
    | some j =>
      rw [hs] at h
      simp only [Option.map_some', Option.some.injEq] at h
      exact ⟨j, xstrrchr_get rel '/' _ j hs, h.symm⟩
  · subst hn
    simp [section_of] at h
  · rw [section_of_forward rel n hn] at h
    cases hs : strchr rel 0 '/' with
    | none => rw [hs] at h; simp at h
    | some j =>
      rw [hs] at h
      simp only [Option.map_some', Option.some.injEq] at h
      exact ⟨j, strchr_get rel 0 j '/' hs, h.symm⟩

/-- Stripping from a name the section cut out of that same name leaves what
follows the '/' at which it was cut. -/
theorem strip_section_self (rel : Str) (i : Nat) (hi : rel.get? i = some '/') :
    strip_section rel (rel.take i) = rel.drop (i + 1) := by
  rw [List.get?_eq_getElem?] at hi
  obtain ⟨hlt, hget⟩ := List.getElem?_eq_some_iff.mp hi
  have hl : (rel.take i).length = i := by
    rw [List.length_take]; omega
  have hh : (rel.drop i).head? = some '/' := by
    rw [List.drop_eq_getElem_cons hlt, hget]; rfl
  unfold strip_section section_offset
  rw [if_pos ((prefixcmp_eq_zero _ _).mpr (List.take_prefix i rel)), hl, if_pos hh]

/-! ## The calls made by scan_path -/

theorem Visits.trans {fs : FS} {cfg : Cfg} {root mid v : Str} (h1 : Visits fs cfg root mid)
    (h2 : Visits fs cfg mid v) : Visits fs cfg root v := by
  induction h2 with
  | root => exact h1
  | child p entries e st _ ho hg1 hg2 he hk hs hm ih =>
    exact Visits.child p entries e st ih ho hg1 hg2 he hk hs hm

/-- Every call recorded by the `readdir` loop is the recursive call on an entry
of the directory that is not skipped and is a directory, or is a call made
inside such a recursive call. -/
theorem scan_entries_mem (fs : FS) (cfg : Cfg) (recurse : Str → Option (List Call))
    (path : Str) (es : List Str) (t : List Call) (c : Call)
    (h : scan_entries fs cfg recurse path es = some t) (hc : c ∈ t) :
    ∃ e ∈ es, skip_entry cfg e = false ∧
      (∃ st, fs.stat (path ++ '/' :: e) = StatResult.ok st ∧ st.mode = FileKind.dir) ∧
      (c = Call.scan_path (path ++ '/' :: e) ∨
        ∃ sub, recurse (path ++ '/' :: e) = some sub ∧ c ∈ sub) := by
  induction es generalizing t with
  | nil =>
    simp only [scan_entries, Option.some.injEq] at h
    subst h
    simp at hc
  | cons d rest ih =>
    have lift : (∃ e ∈ rest, skip_entry cfg e = false ∧
        (∃ st, fs.stat (path ++ '/' :: e) = StatResult.ok st ∧ st.mode = FileKind.dir) ∧
        (c = Call.scan_path (path ++ '/' :: e) ∨
          ∃ sub, recurse (path ++ '/' :: e) = some sub ∧ c ∈ sub)) →
        ∃ e ∈ d :: rest, skip_entry cfg e = false ∧
        (∃ st, fs.stat (path ++ '/' :: e) = StatResult.ok st ∧ st.mode = FileKind.dir) ∧
        (c = Call.scan_path (path ++ '/' :: e) ∨
          ∃ sub, recurse (path ++ '/' :: e) = some sub ∧ c ∈ sub) := by
      rintro ⟨e, he, hh⟩
      exact ⟨e, List.mem_cons_of_mem _ he, hh⟩
    unfold scan_entries at h
    split at h
    · exact lift (ih t h hc)
    · rename_i hskip
      split at h
      · rename_i st hst
        split at h
        · rename_i hdir
          split at h
          · rename_i sub more hsub hmore
            simp only [Option.some.injEq] at h
            subst h
            have hk : skip_entry cfg d = false := by simpa using hskip
            rcases List.mem_cons.mp hc with rfl | hc2
            · exact ⟨d, List.mem_cons_self _ _, hk, ⟨st, hst, hdir⟩, Or.inl rfl⟩
            · rcases List.mem_append.mp hc2 with hs | hm
              · exact ⟨d, List.mem_cons_self _ _, hk, ⟨st, hst, hdir⟩,
                  Or.inr ⟨sub, hsub, hs⟩⟩
              · exact lift (ih more hmore hm)
          · simp at h
        · exact lift (ih t h hc)
      · exact lift (ih t h hc)

theorem append_cons_ne_self (p : Str) (x : Char) (e : Str) : p ++ x :: e ≠ p := by
  intro h
  have := congrArg List.length h
  simp at this

theorem Visits.length_le {fs : FS} {cfg : Cfg} {root v : Str} (h : Visits fs cfg root v) :
    root.length ≤ v.length := by
  induction h with
  | root => exact le_refl _
  | child p entries e st _ _ _ _ _ _ _ _ ih => simp; omega

theorem call_ok_lift (fs : FS) (cfg : Cfg) (root mid : Str) (c : Call) (hm : Visits fs cfg root mid)
    (hne : mid ≠ root) (h : call_ok fs cfg mid c) : call_ok fs cfg root c := by
  cases c with
  | scan_path v =>
    obtain ⟨hv, _⟩ := h
    refine ⟨hm.trans hv, ?_⟩
    intro e
    subst e
    have h1 := hv.length_le
    have h2 := hm.length_le
    have hl : mid.length = v.length := le_antisymm h1 h2
    cases hv with
    | root => exact hne rfl
    | child p entries e st hp _ _ _ _ _ _ _ =>
      have h3 := hp.length_le
      simp at hl
      omega
  | add_repo q =>
    obtain ⟨v, hv, ho, hq⟩ := h
    exact ⟨v, hm.trans hv, ho, hq⟩

/-- Every call recorded by scan_path is made in a directory that scan_path has
reached from its starting point: a recursive call is on an entry of a reached
directory that is not a repository, a call of add_repo is on a reached, opened
directory that is a git directory, or on its `.git`. -/
theorem scan_path_calls (fs : FS) (cfg : Cfg) (fuel : Nat) (root : Str) (t : List Call)
    (h : scan_path fs cfg fuel root = some t) : ∀ c ∈ t, call_ok fs cfg root c := by
  induction fuel generalizing root t with
  | zero => simp [scan_path] at h
  | succ n ih =>
    unfold scan_path at h
    split at h
    · simp only [Option.some.injEq] at h
      subst h
      simp
    · rename_i entries ho
      split at h
      · rename_i hg
        simp only [Option.some.injEq] at h
        subst h
        intro c hc
        rw [List.mem_singleton] at hc
        subst hc
        exact ⟨root, Visits.root, by rw [ho]; simp, Or.inl ⟨rfl, hg⟩⟩
      · rename_i hg
        split at h
        · rename_i hg2
          simp only [Option.some.injEq] at h
          subst h
          intro c hc
          rw [List.mem_singleton] at hc
          subst hc
          exact ⟨root, Visits.root, by rw [ho]; simp,
            Or.inr ⟨rfl, by simpa using hg, hg2⟩⟩
        · rename_i hg2
          intro c hc
          obtain ⟨e, he, hk, ⟨st, hst, hdir⟩, hh⟩ :=
            scan_entries_mem fs cfg _ root entries t c h hc
          have hv : Visits fs cfg root (root ++ '/' :: e) :=
            Visits.child root entries e st Visits.root ho (by simpa using hg)
              (by simpa using hg2) he hk hst hdir
          rcases hh with rfl | ⟨sub, hsub, hcs⟩
          · exact ⟨hv, append_cons_ne_self _ _ _⟩
          · exact call_ok_lift fs cfg root _ c hv (append_cons_ne_self _ _ _)
              (ih _ sub hsub c hcs)

/-! ## A repository is a leaf of the traversal -/

/-- Two ways of cutting one path at a '/', the second before a last component:
the first cut is the same, or lies further to the left. -/
theorem split_last_component (p e d s : Str) (hs : '/' ∉ e)
    (h : p ++ '/' :: e = d ++ '/' :: s) : d = p ∨ ∃ y, p = d ++ '/' :: y := by
  rcases List.append_eq_append_iff.mp h with ⟨a, ha, hb⟩ | ⟨c, hc, hd⟩
  · cases a with
    | nil => left; simpa using ha
    | cons x a2 =>
      exfalso
      simp only [List.cons_append, List.cons.injEq] at hb
      apply hs
      rw [hb.2]
      simp
  · cases c with
    | nil => left; simpa using hc.symm
    | cons x c2 =>
      right
      simp only [List.cons_append, List.cons.injEq] at hd
      exact ⟨c2, by rw [hc, ← hd.1]⟩

/-- A directory that lies, by its path, above a reached directory and not above
the starting point is not a repository: scan_path went through it. -/
theorem Visits.above_not_git {fs : FS} {cfg : Cfg} {root v : Str} (hwf : entries_wf fs)
    (hv : Visits fs cfg root v) (d : Str) (hl : root.length ≤ d.length) :
    ∀ s, v = d ++ '/' :: s →
      is_git_dir fs d = 0 ∧ is_git_dir fs (d ++ "/.git".toList) = 0 := by
  induction hv with
  | root =>
    intro s he
    have := congrArg List.length he
    simp at this
    omega
  | child p entries e st _ ho hg1 hg2 hmem _ _ _ ih =>
    intro s he
    rcases split_last_component p e d s (hwf p entries ho e hmem).2 he with rfl | ⟨y, hy⟩
    · exact ⟨hg1, hg2⟩
    · exact ih y hy

theorem scan_path_at_repo (fs : FS) (cfg : Cfg) (k : Nat) (d : Str) (entries : List Str)
    (hopen : fs.opendir d = some entries)
    (hgit : is_git_dir fs d ≠ 0 ∨ is_git_dir fs (d ++ "/.git".toList) ≠ 0) :
    scan_path fs cfg (k + 1) d =
      some [Call.add_repo (if is_git_dir fs d ≠ 0 then d else d ++ "/.git".toList)] := by
  unfold scan_path
  rw [hopen]
  simp only
  by_cases h1 : is_git_dir fs d ≠ 0
  · rw [if_pos h1, if_pos h1]
  · rw [if_neg h1, if_neg h1]
    rcases hgit with h | h
    · exact absurd h h1
    · rw [if_pos h]

/-! ## Termination of the traversal -/

theorem scan_entries_returns (fs : FS) (cfg : Cfg) (recurse : Str → Option (List Call))
    (path : Str) (es : List Str)
    (h : ∀ e ∈ es, skip_entry cfg e = false →
      ∀ st, fs.stat (path ++ '/' :: e) = StatResult.ok st → st.mode = FileKind.dir →
      ∃ sub, recurse (path ++ '/' :: e) = some sub) :
    ∃ t, scan_entries fs cfg recurse path es = some t := by
  induction es with
  | nil => exact ⟨[], rfl⟩
  | cons d rest ih =>
    obtain ⟨more, hmore⟩ := ih (fun e he => h e (List.mem_cons_of_mem _ he))
    unfold scan_entries
    by_cases hk : skip_entry cfg d = true
    · rw [if_pos hk]; exact ⟨more, hmore⟩
    · rw [if_neg hk]
      cases hst : fs.stat (path ++ '/' :: d) with
      | enoent => exact ⟨more, hmore⟩
      | error e => exact ⟨more, hmore⟩
      | ok st =>
        simp only
        by_cases hdir : st.mode = FileKind.dir
        · rw [if_pos hdir]
          obtain ⟨sub, hsub⟩ := h d (List.mem_cons_self _ _) (by simpa using hk) st hst hdir
          rw [hsub, hmore]
          exact ⟨_, rfl⟩
        · rw [if_neg hdir]; exact ⟨more, hmore⟩

/-- On a tree of bounded depth scan_path returns: when every directory it goes
into lies at most `n` bytes of path below its starting point, fuel `n + 1` is
enough. -/
theorem scan_path_returns (fs : FS) (cfg : Cfg) (n : Nat) (root : Str)
    (hb : ∀ v, Visits fs cfg root v → v.length ≤ root.length + n) :
    ∃ t, scan_path fs cfg (n + 1) root = some t := by
  induction n generalizing root with
  | zero =>
    unfold scan_path
    cases ho : fs.opendir root with
    | none => exact ⟨[], rfl⟩
    | some entries =>
      simp only
      by_cases h1 : is_git_dir fs root ≠ 0
      · rw [if_pos h1]; exact ⟨_, rfl⟩
      · rw [if_neg h1]
        by_cases h2 : is_git_dir fs (root ++ "/.git".toList) ≠ 0
        · rw [if_pos h2]; exact ⟨_, rfl⟩
        · rw [if_neg h2]
          apply scan_entries_returns
          intro e he hk st hst hdir
          have hv := hb _ (Visits.child root entries e st Visits.root ho (by simpa using h1)
            (by simpa using h2) he hk hst hdir)
          simp at hv
  | succ m ih =>
    unfold scan_path
    cases ho : fs.opendir root with
    | none => exact ⟨[], rfl⟩
    | some entries =>
      simp only
      by_cases h1 : is_git_dir fs root ≠ 0
      · rw [if_pos h1]; exact ⟨_, rfl⟩
      · rw [if_neg h1]
        by_cases h2 : is_git_dir fs (root ++ "/.git".toList) ≠ 0
        · rw [if_pos h2]; exact ⟨_, rfl⟩
        · rw [if_neg h2]
          apply scan_entries_returns
          intro e he hk st hst hdir
          have hc : Visits fs cfg root (root ++ '/' :: e) :=
            Visits.child root entries e st Visits.root ho (by simpa using h1)
              (by simpa using h2) he hk hst hdir
          apply ih
          intro v hv
          have := hb v (hc.trans hv)
          simp
          omega

/-- C7: let d be a directory that scan_path has opened and that is a git
directory or holds one as `.git`. Then the call of scan_path on d, for any fuel,
makes exactly one call, the call of add_repo on d (or else on `d/.git`), and no
recursive call. A scan of a tree of bounded depth returns; and, with directory
entries as `readdir` gives them, in any scan that reaches d (as its starting
point or by a recursive call) there is no recursive call on a path strictly
below d, and the only path strictly below d that is passed to add_repo is
`d/.git`, when d itself is not a git directory. -/
theorem scan_path_repo_is_leaf (fs : FS) (cfg : Cfg) (d : Str) (entries : List Str)
    (hopen : fs.opendir d = some entries)
    (hgit : is_git_dir fs d ≠ 0 ∨ is_git_dir fs (d ++ "/.git".toList) ≠ 0) :
    (∀ k, scan_path fs cfg (k + 1) d =
      some [Call.add_repo (if is_git_dir fs d ≠ 0 then d else d ++ "/.git".toList)]) ∧
    (∀ n root, (∀ v, Visits fs cfg root v → v.length ≤ root.length + n) →
      ∃ t, scan_path fs cfg (n + 1) root = some t) ∧
    (entries_wf fs → ∀ fuel root t, scan_path fs cfg fuel root = some t →
      (d = root ∨ Call.scan_path d ∈ t) →
      (∀ s, Call.scan_path (d ++ '/' :: s) ∉ t) ∧
      (∀ q s, Call.add_repo q ∈ t → q = d ++ '/' :: s →
        is_git_dir fs d = 0 ∧ q = d ++ "/.git".toList)) := by
  refine ⟨fun k => scan_path_at_repo fs cfg k d entries hopen hgit,
    fun n root hb => scan_path_returns fs cfg n root hb, ?_⟩
  intro hwf fuel root t ht hvis
  have hcalls := scan_path_calls fs cfg fuel root t ht
  have hd : Visits fs cfg root d := by
    rcases hvis with rfl | hm
    · exact Visits.root
    · exact (hcalls _ hm).1
  have hlen := hd.length_le
  have contra : ∀ v s, Visits fs cfg root v → v = d ++ '/' :: s → False := by
    intro v s hv he
    have h0 := hv.above_not_git hwf d hlen s he
    rcases hgit with h | h
    · exact h h0.1
    · exact h h0.2
  refine ⟨?_, ?_⟩
  · intro s hm
    exact contra _ s (hcalls _ hm).1 rfl
  · intro q s hm hq
    obtain ⟨v, hv, -, hcase⟩ := hcalls _ hm
    rcases hcase with ⟨hqv, -⟩ | ⟨hqv, hv0, -⟩
    · exact (contra v s hv (by rw [← hqv, hq])).elim
    · have he : v ++ '/' :: ".git".toList = d ++ '/' :: s := by
        rw [← hq, hqv]; rfl
      rcases split_last_component v _ d s (by decide) he with rfl | ⟨y, hy⟩
      · exact ⟨hv0, hqv⟩
      · exact (contra v y hv hy).elim

/-- A filesystem given by tables has well-formed directory entries when the
names in its directory table are non-empty and without '/'. -/
theorem table_fs_entries_wf (stats : List (String × Stat)) (dirs : List (String × List String))
    (users : List (Nat × Passwd)) (gitcfg rc : List (String × List (String × String)))
    (files : List (String × String))
    (h : ∀ d ∈ dirs, ∀ e ∈ d.2, e.toList ≠ [] ∧ '/' ∉ e.toList) :
    entries_wf (table_fs stats dirs users gitcfg rc files) := by
  intro p entries ho e he
  simp only [table_fs, lookup] at ho
  cases hf : dirs.find? (fun e => decide (e.1.toList = p)) with
  | none => rw [hf] at ho; simp at ho
  | some d =>
    rw [hf] at ho
    simp only [Option.map_some', Option.some.injEq] at ho
    subst ho
    obtain ⟨n, hn, rfl⟩ := List.mem_map.mp he
    exact h d (List.mem_of_find?_eq_some hf) n hn

theorem fs_abcd_entries_wf : entries_wf fs_abcd :=
  table_fs_entries_wf _ _ _ _ _ _ (by decide)

theorem fs_bare_entries_wf : entries_wf fs_bare :=
  table_fs_entries_wf _ _ _ _ _ _ (by decide)

theorem scan_path_repo_is_leaf_witness :
    (scan_path fs_abcd cfg_plain 1 "/a/b/c/d".toList =
      some [Call.add_repo "/a/b/c/d/.git".toList]) ∧
    (scan_path fs_abcd cfg_plain 3 "/a/b".toList =
      some [Call.scan_path "/a/b/c".toList, Call.scan_path "/a/b/c/d".toList,
            Call.add_repo "/a/b/c/d/.git".toList]) ∧
    Call.scan_path "/a/b/c/d/src".toList ∉
      [Call.scan_path "/a/b/c".toList, Call.scan_path "/a/b/c/d".toList,
       Call.add_repo "/a/b/c/d/.git".toList] :=
  have t := scan_path_repo_is_leaf fs_abcd cfg_plain "/a/b/c/d".toList
    [".".toList, "..".toList, ".git".toList, "README".toList, "src".toList]
    (by decide) (Or.inr (by decide))
  ⟨(t.1 0).trans (by decide), by decide,
   ((t.2.2 fs_abcd_entries_wf 3 "/a/b".toList _ (by decide) (Or.inr (by decide))).1
      "src".toList)⟩

/-! ## The registered name has no '/' at either end -/

theorem edge_ok_entry (e : Str) (hne : e ≠ []) (hs : '/' ∉ e) : edge_ok e := by
  refine ⟨hne, ?_, ?_⟩
  · intro h
    exact hs (List.mem_of_mem_head? h)
  · intro h
    exact hs (List.mem_of_mem_getLast? h)

theorem edge_ok_append_entry (t e : Str) (ht : edge_ok t) (hne : e ≠ []) (hs : '/' ∉ e) :
    edge_ok (t ++ '/' :: e) := by
  obtain ⟨htne, hh, -⟩ := ht
  refine ⟨by simp, ?_, ?_⟩
  · cases t with
    | nil => exact absurd rfl htne
    | cons c cs => simpa using hh
  · intro h
    have h2 : ('/' :: e).getLast? = e.getLast? := by
      cases e with
      | nil => exact absurd rfl hne
      | cons c cs => rw [List.getLast?_cons_cons]
    rw [List.getLast?_append, h2] at h
    cases hl : e.getLast? with
    | none =>
      cases e with
      | nil => exact hne rfl
      | cons c cs => simp at hl
    | some x =>
      rw [hl] at h
      simp only [Option.or_some, Option.some.injEq] at h
      subst h
      exact hs (List.mem_of_mem_getLast? hl)

theorem clean_edge_ok (t : Str) (h : clean t = true) : edge_ok t := by
  refine ⟨?_, clean_no_edge_slash t h⟩
  rintro rfl
  simp [clean, clean_from] at h

theorem tail_of_append_entry (P : Str → Prop)
    (hP0 : ∀ e, e ≠ [] → '/' ∉ e → P e)
    (hP : ∀ t e, P t → e ≠ [] → '/' ∉ e → P (t ++ '/' :: e))
    (u e : Str) (hu : tail_of P u) (hne : e ≠ []) (hs : '/' ∉ e) :
    tail_of P (u ++ '/' :: e) := by
  rcases hu with rfl | ⟨t, rfl, ht⟩
  · exact Or.inr ⟨e, rfl, hP0 e hne hs⟩
  · exact Or.inr ⟨t ++ '/' :: e, rfl, hP t e ht hne hs⟩

/-- Every directory reached from a starting point `base ++ u0`, where `u0` is
empty or a '/' and a relative path with a property that is kept when a
directory entry is appended, is `base ++ u` with such a `u`. -/
theorem Visits.tail_of {fs : FS} {cfg : Cfg} {root v : Str} (P : Str → Prop)
    (hP0 : ∀ e, e ≠ [] → '/' ∉ e → P e)
    (hP : ∀ t e, P t → e ≠ [] → '/' ∉ e → P (t ++ '/' :: e))
    (hwf : entries_wf fs)
    (hv : Visits fs cfg root v) (base u0 : Str) (hr : root = base ++ u0)
    (h0 : ScanTree.tail_of P u0) :
    ∃ u, v = base ++ u ∧ ScanTree.tail_of P u := by
  induction hv with
  | root => exact ⟨u0, hr, h0⟩
  | child p entries e st _ ho _ _ hmem _ _ _ ih =>
    obtain ⟨u, hu, hg⟩ := ih
    obtain ⟨hne, hs⟩ := hwf p entries ho e hmem
    exact ⟨u ++ '/' :: e, by rw [hu]; simp, tail_of_append_entry P hP0 hP u e hg hne hs⟩

theorem add_repo_path_tail (fs : FS) (cfg : Cfg) (P : Str → Prop)
    (hP0 : ∀ e, e ≠ [] → '/' ∉ e → P e)
    (hP : ∀ t e, P t → e ≠ [] → '/' ∉ e → P (t ++ '/' :: e))
    (hwf : entries_wf fs) (fuel : Nat)
    (base u0 : Str) (h0 : tail_of P u0) (t : List Call) (q : Str)
    (ht : scan_path fs cfg fuel (base ++ u0) = some t) (hq : Call.add_repo q ∈ t) :
    ∃ u, q = base ++ u ∧ tail_of P u := by
  obtain ⟨v, hv, -, hcase⟩ := scan_path_calls fs cfg fuel _ t ht _ hq
  obtain ⟨u, hu, hg⟩ := hv.tail_of P hP0 hP hwf base u0 rfl h0
  rcases hcase with ⟨rfl, -⟩ | ⟨rfl, -, -⟩
  · exact ⟨u, hu, hg⟩
  · refine ⟨u ++ '/' :: ".git".toList, ?_,
      tail_of_append_entry P hP0 hP u _ hg (by decide) (by decide)⟩
    rw [hu, List.append_assoc]
    rfl

/-- The name computed by lines 109-117 for a path `base ++ u`, where `u` is a
'/' and a relative path, is that relative path; for the path `base` it is
empty. -/
theorem rel_of_tail (P : Str → Prop) (before base u rel : Str) (hu : tail_of P u)
    (h : trim_rel before (rel_of_path base ((base ++ u) ++ ['/'])) = some rel) :
    rel = [] ∨ P rel := by
  rcases hu with rfl | ⟨t, rfl, ht⟩
  · left
    rw [List.append_nil, rel_of_path_append] at h
    rcases trim_rel_nil before with h2 | h2
    · rw [h2] at h; exact (Option.some.inj h).symm
    · rw [h2] at h; cases h
  · right
    have e : (base ++ '/' :: t) ++ ['/'] = base ++ '/' :: (t ++ ['/']) := by simp
    rw [e, rel_of_path_append, trim_rel_slash] at h
    rw [← Option.some.inj h]
    exact ht

theorem scan_projects_lines_mem (fs : FS) (cfg : Cfg) (fuel : Nat) (path : Str)
    (lines : List Str) (t : List Call) (q : Str)
    (h : scan_projects_lines fs cfg fuel path lines = some t) (hq : Call.add_repo q ∈ t) :
    ∃ line ∈ lines, line ≠ [] ∧
      ∃ sub, scan_path fs cfg fuel (path ++ '/' :: line) = some sub ∧ Call.add_repo q ∈ sub := by
  induction lines generalizing t with
  | nil =>
    simp only [scan_projects_lines, Option.some.injEq] at h
    subst h
    simp at hq
  | cons l rest ih =>
    have lift : (∃ line ∈ rest, line ≠ [] ∧ ∃ sub,
        scan_path fs cfg fuel (path ++ '/' :: line) = some sub ∧ Call.add_repo q ∈ sub) →
        ∃ line ∈ l :: rest, line ≠ [] ∧ ∃ sub,
        scan_path fs cfg fuel (path ++ '/' :: line) = some sub ∧ Call.add_repo q ∈ sub := by
      rintro ⟨line, hl, hh⟩
      exact ⟨line, List.mem_cons_of_mem _ hl, hh⟩
    unfold scan_projects_lines at h
    split at h
    · exact lift (ih t h hq)
    · rename_i hlen
      split at h
      · rename_i sub more hsub hmore
        simp only [Option.some.injEq] at h
        subst h
        rcases List.mem_cons.mp hq with hbad | hq2
        · cases hbad
        · rcases List.mem_append.mp hq2 with hs | hm
          · exact ⟨l, List.mem_cons_self _ _, by
              intro hnil; exact hlen (by rw [hnil]; rfl), sub, hsub, hs⟩
          · exact lift (ih more hmore hm)
      · simp at h

/-- The paths that scan_tree and scan_projects pass to add_repo are the scan
root followed by nothing, or by a '/' and a relative path with the property `P`,
when `P` holds for the non-empty lines of the projects file and is kept when a
directory entry is appended. -/
theorem scanned_path_tail (fs : FS) (cfg : Cfg) (P : Str → Prop)
    (hP0 : ∀ e, e ≠ [] → '/' ∉ e → P e)
    (hP : ∀ t e, P t → e ≠ [] → '/' ∉ e → P (t ++ '/' :: e))
    (hwf : entries_wf fs) (base : Str) (fuel : Nat) (t : List Call)
    (hscan : scan_tree fs cfg fuel base = some t ∨
      ∃ lines, (∀ l ∈ lines, l ≠ [] → P l) ∧
        scan_projects fs cfg fuel base (some lines) = some t)
    (q : Str) (hq : Call.add_repo q ∈ t) : ∃ u, q = base ++ u ∧ tail_of P u := by
  rcases hscan with ht | ⟨lines, hl, ht⟩
  · exact add_repo_path_tail fs cfg P hP0 hP hwf fuel base [] (Or.inl rfl) t q
      (by rw [List.append_nil]; exact ht) hq
  · obtain ⟨line, hmem, hne, sub, hsub, hqs⟩ :=
      scan_projects_lines_mem fs cfg fuel base lines t q ht hq
    exact add_repo_path_tail fs cfg P hP0 hP hwf fuel base ('/' :: line)
      (Or.inr ⟨line, rfl, hl line hmem hne⟩) sub q hsub hqs

theorem desc_step_name (fs : FS) (p : Str) (r : Repo) : (desc_step fs p r).name = r.name := by
  unfold desc_step
  split
  · split
    · split <;> rfl
    · rfl
  · rfl

/-- What lines 127-129 do to the name of a record that is still named by its
relative name: nothing, or, with `remove_suffix` on and the name in the buffer
of the url, they cut a final ".git" off it. -/
theorem remove_suffix_step_name (cfg : Cfg) (r : Repo) (rel : Str) (hn : r.name = rel)
    (hu : cfg.remove_suffix = false ∨ (r.name_is_url = true → r.url = rel)) :
    (remove_suffix_step cfg r).name = rel ∨
    (cfg.remove_suffix = true ∧
      ∃ x, rel = x ++ ".git".toList ∧ (remove_suffix_step cfg r).name = x) := by
  unfold remove_suffix_step
  by_cases hr : cfg.remove_suffix = true
  · rw [if_pos hr]
    have hurl : r.name_is_url = true → r.url = rel := by
      rcases hu with h | h
      · rw [hr] at h; cases h
      · exact h
    cases hp : strrchr r.url '.' with
    | none => exact Or.inl hn
    | some p =>
      simp only
      by_cases hc : strcmp (r.url.drop p) ".git".toList = 0
      · rw [if_pos hc]
        by_cases hf : r.name_is_url = true
        · right
          refine ⟨hr, r.url.take p, ?_, ?_⟩
          · rw [← (strcmp_eq_zero _ _).mp hc, List.take_append_drop]
            exact (hurl hf).symm
          · simp [hf]
        · left
          simp [hf, hn]
      · rw [if_neg hc]
        exact Or.inl hn
  · rw [if_neg hr]
    exact Or.inl hn

theorem clean_from_prefix (b : Bool) (x y : Str) (h : clean_from b (x ++ y) = true)
    (hne : x ≠ []) (hl : x.getLast? ≠ some '/') : clean_from b x = true := by
  induction x generalizing b with
  | nil => exact absurd rfl hne
  | cons c cs ih =>
    cases cs with
    | nil =>
      have hc : c ≠ '/' := by simpa using hl
      unfold clean_from
      rw [if_neg hc]
      rfl
    | cons c2 cs2 =>
      rw [List.getLast?_cons_cons] at hl
      simp only [List.cons_append] at h
      unfold clean_from at h ⊢
      by_cases hc : c = '/'
      · rw [if_pos hc] at h ⊢
        simp only [Bool.and_eq_true] at h ⊢
        exact ⟨h.1, ih true h.2 (by simp) hl⟩
      · rw [if_neg hc] at h ⊢
        exact ih false h (by simp) hl

/-- A name that does not end with "/.git" and loses a final ".git" does not end
with '/' afterwards. -/
theorem cut_getLast (rel x : Str) (hx : rel = x ++ ".git".toList)
    (hs : ¬ "/.git".toList <:+ rel) : x.getLast? ≠ some '/' := by
  intro h
  apply hs
  have e : x.dropLast ++ ['/'] = x := List.dropLast_append_getLast? '/' h
  refine ⟨x.dropLast, ?_⟩
  rw [hx]
  conv_rhs => rw [← e]
  simp

/-- The name left by the section step, for a record still named by its relative
name, has no '/' at either end when that relative name is empty or well formed. -/
theorem section_step_name (cfg : Cfg) (rel : Str) (r : Repo) (hn : r.name = rel)
    (hrel : rel = [] ∨ clean rel = true) :
    no_edge_slash (section_step cfg rel r).name := by
  unfold section_step
  cases hs : section_of rel cfg.section_from_path with
  | none =>
    simp only
    rw [hn]
    rcases hrel with rfl | hc
    · exact no_edge_slash_nil
    · exact clean_no_edge_slash rel hc
  | some sect =>
    simp only
    obtain ⟨i, hi, rfl⟩ := section_of_slash rel _ sect hs
    rw [hn, strip_section_self rel i hi]
    rcases hrel with rfl | hc
    · simp at hi
    · exact clean_no_edge_slash _ (clean_drop rel i hc hi)

/-- The same for a record whose name is the relative name without its final
".git": the section is cut at a '/' that lies in the shortened name. -/
theorem section_step_name_cut (cfg : Cfg) (rel x : Str) (r : Repo)
    (hx : rel = x ++ ".git".toList) (hn : r.name = x) (hxc : x = [] ∨ clean x = true) :
    no_edge_slash (section_step cfg rel r).name := by
  unfold section_step
  cases hs : section_of rel cfg.section_from_path with
  | none =>
    simp only
    rw [hn]
    rcases hxc with rfl | hc
    · exact no_edge_slash_nil
    · exact clean_no_edge_slash x hc
  | some sect =>
    simp only
    obtain ⟨i, hi, rfl⟩ := section_of_slash rel _ sect hs
    have hlt : i < x.length := by
      by_contra hge
      rw [List.get?_eq_getElem?, hx, List.getElem?_append_right (by omega)] at hi
      have hm : '/' ∈ ".git".toList := List.mem_iff_getElem?.mpr ⟨_, hi⟩
      exact absurd hm (by decide)
    have hix : x.get? i = some '/' := by
      rw [List.get?_eq_getElem?, hx, List.getElem?_append_left hlt] at hi
      rw [List.get?_eq_getElem?]
      exact hi
    have htake : rel.take i = x.take i := by
      rw [hx, List.take_append_of_le_length (le_of_lt hlt)]
    rw [hn, htake, strip_section_self x i hix]
    rcases hxc with rfl | hc
    · simp at hlt
    · exact clean_no_edge_slash _ (clean_drop x i hc hix)

/-- The name handed to `cgit_add_repo` for a path `base ++ u`, where `u` is
nothing or a '/' and a relative path without '/' at either end. -/
theorem add_repo_rel_ok (fs : FS) (cfg : Cfg) (fn : ConfigFn) (before : Str) (fuel : Nat)
    (base u : Str) (hu : tail_of edge_ok u) (a : Added)
    (h : add_repo fs cfg fn before fuel base (base ++ u) = some (Outcome.added a)) :
    no_edge_slash a.rel := by
  obtain ⟨st0, st1, rel, -, -, hrel, ht⟩ := add_repo_inv fs cfg fn before fuel base _ a h
  obtain ⟨a2, r4, ha, harel, -, -, -, -, -⟩ :=
    add_repo_tail_inv fs cfg fn fuel _ st1 rel _ ht
  cases ha
  rw [harel]
  rcases rel_of_tail edge_ok before base u rel hu hrel with rfl | hc
  · exact no_edge_slash_nil
  · exact hc.2

/-- The name after the section step for a path `base ++ u`, where `u` is
nothing or a '/' and a well-formed relative path, when the legacy-config step
has left the record named by its relative name and either `remove_suffix` is
off, or the relative name does not end with "/.git" and the url buffer that the
name shares still holds the relative name. -/
theorem add_repo_name_ok (fs : FS) (cfg : Cfg) (fn : ConfigFn) (before : Str) (fuel : Nat)
    (base u : Str) (hu : tail_of (fun t => clean t = true) u) (a : Added)
    (h : add_repo fs cfg fn before fuel base (base ++ u) = some (Outcome.added a))
    (hcond : cfg.remove_suffix = false ∨
      (¬ "/.git".toList <:+ a.rel ∧
        (a.after_git_config.name_is_url = true → a.after_git_config.url = a.rel)))
    (hname : a.after_git_config.name = a.rel) :
    no_edge_slash a.before_cgitrc.name := by
  obtain ⟨st0, st1, rel, -, -, hrel, ht⟩ := add_repo_inv fs cfg fn before fuel base _ a h
  obtain ⟨a2, r4, ha, harel, -, hloop, hbefore, -, -⟩ :=
    add_repo_tail_inv fs cfg fn fuel _ st1 rel _ ht
  cases ha
  rw [harel] at hcond hname
  have hgood := rel_of_tail _ before base u rel hu hrel
  obtain ⟨o, hr4⟩ := owner_loop_frame _ _ _ _ _ _ _ hloop
  have h4 : r4.name = (remove_suffix_step cfg a.after_git_config).name := by rw [hr4]
  have hd : (desc_step fs (base ++ u ++ ['/']) r4).name =
      (remove_suffix_step cfg a.after_git_config).name :=
    (desc_step_name fs _ r4).trans h4
  rw [hbefore]
  have hu2 : cfg.remove_suffix = false ∨
      (a.after_git_config.name_is_url = true → a.after_git_config.url = rel) := by
    rcases hcond with h1 | h2
    · exact Or.inl h1
    · exact Or.inr h2.2
  rcases remove_suffix_step_name cfg a.after_git_config rel hname hu2 with
    hsame | ⟨hon, x, hx, hcut⟩
  · exact section_step_name cfg rel _ (hd.trans hsame) hgood
  · have hns : ¬ "/.git".toList <:+ rel := by
      rcases hcond with h1 | h2
      · rw [hon] at h1; cases h1
      · exact h2.1
    have hlast := cut_getLast rel x hx hns
    have hrc : clean rel = true := by
      rcases hgood with h0 | hc
      · rw [h0] at hx
        have := congrArg List.length hx
        simp at this
      · exact hc
    have hxc : x = [] ∨ clean x = true := by
      by_cases hxe : x = []
      · exact Or.inl hxe
      · right
        unfold clean at hrc ⊢
        rw [hx] at hrc
        exact clean_from_prefix true x _ hrc hxe hlast
    exact section_step_name_cut cfg rel x _ hx (hd.trans hcut) hxc

/-- With `remove_suffix` on, the url of the non-bare repository of `fs_abcd`,
registered as `c/d/.git`, is cut before `.git`; the name is the same buffer and
reads `c/d/` after the section step. -/
theorem name_after_remove_suffix :
    (add_repo fs_abcd cfg_remove_suffix fn_example [] 2 "/a/b".toList
      "/a/b/c/d/.git".toList).map
      (fun o => o.repo.map (fun r => (r.url, r.name))) =
      some (some ("c/d/".toList, "c/d/".toList)) := by
  decide

/-- C4, as the claim states it, fails: for the projects-file line `r.git/` under
the scan root `/srv`, scan_projects passes `/srv/r.git/` to add_repo, which
accepts it and registers the name `r.git/`, ending with '/'. -/
theorem list_line_trailing_slash :
    scan_projects fs_list cfg_plain 2 "/srv".toList (some ["".toList, "r.git/".toList]) =
      some [Call.scan_path "/srv/r.git/".toList, Call.add_repo "/srv/r.git/".toList] ∧
    (add_repo fs_list cfg_plain fn_example [] 2 "/srv".toList "/srv/r.git/".toList).map
      Outcome.registered = some (some "r.git/".toList) ∧
    "r.git/".toList.getLast? = some '/' := by
  decide

/-- C4, amended: with directory entries as `readdir` gives them, for every scan
root and every path that scan_tree passes to add_repo, or that scan_projects
passes to add_repo when no non-empty line of the projects file begins or ends
with '/', if add_repo registers a record then the name handed to
`cgit_add_repo` neither begins nor ends with '/'. If moreover no line has two
adjacent '/' and the legacy-config step has left the record named by that name,
then the record's name after the section step neither begins nor ends with '/'
either, with `remove_suffix` off, and also with `remove_suffix` on unless the
relative name ends with "/.git" (or the legacy-config step has replaced the url
whose buffer the name shares). -/
theorem registered_name_no_edge_slash (fs : FS) (cfg : Cfg) (fn : ConfigFn)
    (hwf : entries_wf fs) (base : Str) (fuel : Nat) (t : List Call)
    (hscan : scan_tree fs cfg fuel base = some t ∨
      ∃ lines, (∀ l ∈ lines, l ≠ [] → edge_ok l) ∧
        scan_projects fs cfg fuel base (some lines) = some t)
    (q : Str) (hq : Call.add_repo q ∈ t) (before : Str) (fuel2 : Nat) (a : Added)
    (ha : add_repo fs cfg fn before fuel2 base q = some (Outcome.added a)) :
    no_edge_slash a.rel ∧
    ((scan_tree fs cfg fuel base = some t ∨
        ∃ lines, (∀ l ∈ lines, l ≠ [] → clean l = true) ∧
          scan_projects fs cfg fuel base (some lines) = some t) →
      (cfg.remove_suffix = false ∨
        (¬ "/.git".toList <:+ a.rel ∧
          (a.after_git_config.name_is_url = true → a.after_git_config.url = a.rel))) →
      a.after_git_config.name = a.rel →
      no_edge_slash a.before_cgitrc.name) := by
  refine ⟨?_, ?_⟩
  · obtain ⟨u, rfl, hu⟩ := scanned_path_tail fs cfg edge_ok edge_ok_entry
      edge_ok_append_entry hwf base fuel t hscan q hq
    exact add_repo_rel_ok fs cfg fn before fuel2 base u hu a ha
  · intro hclean hcond hname
    obtain ⟨u, rfl, hu⟩ := scanned_path_tail fs cfg (fun t => clean t = true) clean_entry
      clean_append_entry hwf base fuel t hclean q hq
    exact add_repo_name_ok fs cfg fn before fuel2 base u hu a ha hcond hname

theorem registered_name_no_edge_slash_witness :
    (scan_tree fs_bare cfg_section_fwd 3 "/srv".toList =
      some [Call.scan_path "/srv/g".toList, Call.scan_path "/srv/g/foo.git".toList,
            Call.add_repo "/srv/g/foo.git".toList] ∧
      add_repo fs_bare cfg_section_fwd fn_example [] 2 "/srv".toList
        "/srv/g/foo.git".toList = some (Outcome.added added_foo) ∧
      added_foo.rel = "g/foo.git".toList ∧ no_edge_slash added_foo.rel ∧
      added_foo.before_cgitrc.name = "foo".toList ∧
      no_edge_slash added_foo.before_cgitrc.name) ∧
    (scan_projects fs_bare cfg_section_bwd 2 "/srv".toList
        (some ["".toList, "g".toList]) =
      some [Call.scan_path "/srv/g".toList, Call.scan_path "/srv/g/foo.git".toList,
            Call.add_repo "/srv/g/foo.git".toList] ∧
      add_repo fs_bare cfg_section_bwd fn_example [] 2 "/srv".toList
        "/srv/g/foo.git".toList = some (Outcome.added added_foo) ∧
      no_edge_slash added_foo.rel ∧ no_edge_slash added_foo.before_cgitrc.name) ∧
    (scan_projects fs_abcd cfg_section_only 1 "/a/b".toList
        (some ["".toList, "c/d".toList]) =
      some [Call.scan_path "/a/b/c/d".toList, Call.add_repo "/a/b/c/d/.git".toList] ∧
      add_repo fs_abcd cfg_section_only fn_example [] 2 "/a/b".toList
        "/a/b/c/d/.git".toList = some (Outcome.added added_abcd_section) ∧
      added_abcd_section.before_cgitrc.name = "d/.git".toList ∧
      no_edge_slash added_abcd_section.rel ∧
      no_edge_slash added_abcd_section.before_cgitrc.name) :=
  have h1 : scan_tree fs_bare cfg_section_fwd 3 "/srv".toList =
      some [Call.scan_path "/srv/g".toList, Call.scan_path "/srv/g/foo.git".toList,
            Call.add_repo "/srv/g/foo.git".toList] := by decide
  have a1 : add_repo fs_bare cfg_section_fwd fn_example [] 2 "/srv".toList
      "/srv/g/foo.git".toList = some (Outcome.added added_foo) := by decide
  have h2 : scan_projects fs_bare cfg_section_bwd 2 "/srv".toList
      (some ["".toList, "g".toList]) =
      some [Call.scan_path "/srv/g".toList, Call.scan_path "/srv/g/foo.git".toList,
            Call.add_repo "/srv/g/foo.git".toList] := by decide
  have a2 : add_repo fs_bare cfg_section_bwd fn_example [] 2 "/srv".toList
      "/srv/g/foo.git".toList = some (Outcome.added added_foo) := by decide
  have h3 : scan_projects fs_abcd cfg_section_only 1 "/a/b".toList
      (some ["".toList, "c/d".toList]) =
      some [Call.scan_path "/a/b/c/d".toList, Call.add_repo "/a/b/c/d/.git".toList] := by
    decide
  have a3 : add_repo fs_abcd cfg_section_only fn_example [] 2 "/a/b".toList
      "/a/b/c/d/.git".toList = some (Outcome.added added_abcd_section) := by decide
  have lines_ok : ∀ (line : Str), clean line = true →
      (∀ l ∈ ["".toList, line], l ≠ [] → clean l = true) ∧
      (∀ l ∈ ["".toList, line], l ≠ [] → edge_ok l) := by
    intro line hc
    have key : ∀ l ∈ ["".toList, line], l ≠ [] → clean l = true := by
      intro l hl hne
      rcases List.mem_cons.mp hl with rfl | hl2
      · exact absurd rfl hne
      · rw [List.mem_singleton] at hl2
        subst hl2
        exact hc
    exact ⟨key, fun l hl hne => clean_edge_ok l (key l hl hne)⟩
  have cut_ok : ¬ "/.git".toList <:+ added_foo.rel ∧
      (added_foo.after_git_config.name_is_url = true →
        added_foo.after_git_config.url = added_foo.rel) :=
    ⟨by decide, fun _ => rfl⟩
  have t1 := registered_name_no_edge_slash fs_bare cfg_section_fwd fn_example
    fs_bare_entries_wf "/srv".toList 3 _ (Or.inl h1) "/srv/g/foo.git".toList (by decide)
    [] 2 added_foo a1
  have t2 := registered_name_no_edge_slash fs_bare cfg_section_bwd fn_example
    fs_bare_entries_wf "/srv".toList 2 _
    (Or.inr ⟨["".toList, "g".toList], (lines_ok "g".toList (by decide)).2, h2⟩)
    "/srv/g/foo.git".toList (by decide) [] 2 added_foo a2
  have t3 := registered_name_no_edge_slash fs_abcd cfg_section_only fn_example
    fs_abcd_entries_wf "/a/b".toList 1 _
    (Or.inr ⟨["".toList, "c/d".toList], (lines_ok "c/d".toList (by decide)).2, h3⟩)
    "/a/b/c/d/.git".toList (by decide) [] 2 added_abcd_section a3
  ⟨⟨h1, a1, rfl, t1.1, rfl, t1.2 (Or.inl h1) (Or.inr cut_ok) rfl⟩,
   ⟨h2, a2, t2.1,
    t2.2 (Or.inr ⟨["".toList, "g".toList], (lines_ok "g".toList (by decide)).1, h2⟩)
      (Or.inr cut_ok) rfl⟩,
   ⟨h3, a3, rfl, t3.1,
    t3.2 (Or.inr ⟨["".toList, "c/d".toList], (lines_ok "c/d".toList (by decide)).1, h3⟩)
      (Or.inl rfl) rfl⟩⟩

end ScanTree
